import Mathlib

/-!
Verification of the ClaDI service-container / registry / factory core.

The definitions below are a shallow embedding of the TypeScript sources:

* `BaseRegistry` (src/infrastructure/class/base/registry.class.ts) — a
  string-keyed item store with a query cache.  JS `Map` objects are modelled
  as insertion-ordered association lists; JS array identity is modelled by
  tagging every freshly computed result array with a fresh number from an
  allocation counter.
* `BaseContainer` (src/infrastructure/class/base/container.class.ts) — the
  dependency-injection container (`get` / `register` / `registerMany` /
  `resolve`), together with the process-wide `containerRegistry` directory.
* `BaseFactory.create` and `safeDeepClone`
  (src/infrastructure/class/base/factory.class.ts, safe-deep-clone utility) —
  over an explicit heap of plain data objects, arrays and dates.

External code (constructor bodies, dynamic factory bodies) is supplied through
an environment of functions; recursion depth of the resolution engine and of
the cloner is bounded by explicit fuel, reflecting the call stack of the
source (which has no cycle detection).
-/

namespace ClaDI

/-- JS symbol: identity is `id`; `descr` models `Symbol.prototype.description`.
As a modelling convention every `id` denotes one fixed runtime symbol, so
structural equality coincides with JS symbol identity. -/
structure Sym where
  id : Nat
  descr : Option String
deriving DecidableEq, Repr

/-- Result of the JS coercion `String(sym)` for a symbol. -/
def Sym.str (s : Sym) : String :=
  "Symbol(" ++ s.descr.getD "" ++ ")"

/-- Result of the JS template interpolation of `token.description`
(`String(token.description)`), which prints `undefined` for an absent
description. -/
def Sym.descrStr (s : Sym) : String :=
  s.descr.getD "undefined"

/-- Argument passed where `BaseRegistry` expects a name.  The TS signature says
`symbol`, but JS callers also pass strings (`BaseFactory.create` does) and
null-ish values, which the source guards with truthiness checks. -/
inductive RName where
  | nullName
  | strName (s : String)
  | symName (s : Sym)
deriving DecidableEq, Repr

/-- JS truthiness of a name argument (`if (!name)`). -/
def RName.truthy : RName → Bool
  | .nullName => false
  | .strName s => !(s = "")
  | .symName _ => true

/-- The JS coercion `String(name)` used to build the key of the backing map. -/
def RName.str : RName → String
  | .nullName => "null"
  | .strName s => s
  | .symName s => s.str

/-- Lookup in an insertion-ordered association list (JS `Map.prototype.get`). -/
def alGet [DecidableEq κ] (k : κ) : List (κ × β) → Option β
  | [] => none
  | (k', v) :: rest => if k' = k then some v else alGet k rest

/-- Update-or-append on an association list (JS `Map.prototype.set`). -/
def alSet [DecidableEq κ] (k : κ) (v : β) : List (κ × β) → List (κ × β)
  | [] => [(k, v)]
  | (k', v') :: rest => if k' = k then (k, v) :: rest else (k', v') :: alSet k v rest

/-- Deletion on an association list (JS `Map.prototype.delete`). -/
def alErase [DecidableEq κ] (k : κ) : List (κ × β) → List (κ × β)
  | [] => []
  | (k', v') :: rest => if k' = k then rest else (k', v') :: alErase k rest

/-- Errors raised by `BaseRegistry` (the `code` field of the thrown
`BaseError`). -/
inductive RErr where
  | itemNull
  | itemAlreadyExists
  | nameRequired
deriving DecidableEq, Repr

/-- State of one `BaseRegistry` instance: the `ITEMS` map, the `CACHE` map of
query results, and an allocation counter that hands out the identity tag of
each freshly built result array (distinct tags model distinct JS array
references). -/
structure RegState (α : Type) where
  items : List (String × α)
  cache : List (String × (Nat × List α))
  nextArrayId : Nat
deriving DecidableEq, Repr

/-- State of a freshly constructed `BaseRegistry`. -/
def emptyRegistry : RegState α :=
  ⟨[], [], 0⟩

namespace BaseRegistry

/-- BaseRegistry.get (registry.class.ts lines 49-67): falsy names read as
`undefined`; otherwise a pure lookup under `String(name)`.  Never touches the
cache and never throws. -/
def get (st : RegState α) (name : RName) : Option α :=
  if name.truthy then alGet name.str st.items else none

/-- BaseRegistry.has (lines 138-150): falsy names are `false`; otherwise a key
lookup under `String(name)`. -/
def has (st : RegState α) (name : RName) : Bool :=
  if name.truthy then (alGet name.str st.items).isSome else false

/-- BaseRegistry.getAll (lines 73-91): serve the reserved `getAll` cache key if
present, otherwise snapshot the item values, tag the result with a fresh array
identity and cache it. -/
def getAll (st : RegState α) : (Nat × List α) × RegState α :=
  match alGet "getAll" st.cache with
  | some r => (r, st)
  | none =>
    let result := st.items.map Prod.snd
    (⟨st.nextArrayId, result⟩,
      ⟨st.items, alSet "getAll" (st.nextArrayId, result) st.cache, st.nextArrayId + 1⟩)

/-- Cache key built by BaseRegistry.getMany (line 116):
`"getMany:" + names.map(String).join(",")`. -/
def getManyKey (names : List RName) : String :=
  "getMany:" ++ String.intercalate "," (names.map RName.str)

/-- BaseRegistry.getMany (lines 99-131): serve the per-sequence cache key if
present, otherwise `names.map(get).filter(item ≠ undefined)`, tagged with a
fresh array identity and cached. -/
def getMany (st : RegState α) (names : List RName) : (Nat × List α) × RegState α :=
  match alGet (getManyKey names) st.cache with
  | some r => (r, st)
  | none =>
    let result := names.filterMap (fun n => get st n)
    (⟨st.nextArrayId, result⟩,
      ⟨st.items, alSet (getManyKey names) (st.nextArrayId, result) st.cache,
        st.nextArrayId + 1⟩)

/-- BaseRegistry.register (lines 158-184): reject a falsy item, reject a name
already present (`has`), otherwise insert under `String(name)` and clear the
whole query cache.  The name itself is never validated.  `falsy` is the JS
truthiness test of the item type.  On an error the thrown exception leaves the
state unchanged. -/
def register (falsy : α → Bool) (st : RegState α) (name : RName) (item : α) :
    Except RErr Unit × RegState α :=
  if falsy item then (.error .itemNull, st)
  else if has st name then (.error .itemAlreadyExists, st)
  else (.ok (), ⟨alSet name.str item st.items, [], st.nextArrayId⟩)

/-- BaseRegistry.registerMany (lines 191-217): iterate the own symbol keys of
the record in order, skip falsy items, and call `register` on each remaining
entry.  A thrown error aborts the loop and propagates (no catch). -/
def registerMany (falsy : α → Bool) (st : RegState α) (items : List (Sym × α)) :
    Except RErr Unit × RegState α :=
  match items with
  | [] => (.ok (), st)
  | (n, i) :: rest =>
    if falsy i then registerMany falsy st rest
    else
      match register falsy st (.symName n) i with
      | (.ok _, st₁) => registerMany falsy st₁ rest
      | (.error e, st₁) => (.error e, st₁)

/-- BaseRegistry.unregister (lines 224-243): reject a falsy name with the
name-required error before touching the map; otherwise delete the key (whether
present or not) and clear the whole query cache. -/
def unregister (st : RegState α) (name : RName) : Except RErr Unit × RegState α :=
  if !name.truthy then (.error .nameRequired, st)
  else (.ok (), ⟨alErase name.str st.items, [], st.nextArrayId⟩)

/-- BaseRegistry.unregisterMany (lines 250-272): `unregister` each name in
order; a thrown error aborts the loop and propagates. -/
def unregisterMany (st : RegState α) (names : List RName) : Except RErr Unit × RegState α :=
  match names with
  | [] => (.ok (), st)
  | n :: rest =>
    match unregister st n with
    | (.ok _, st₁) => unregisterMany st₁ rest
    | (.error e, st₁) => (.error e, st₁)

/-- BaseRegistry.clear (lines 33-40): clear the items and the whole query
cache. -/
def clear (st : RegState α) : RegState α :=
  ⟨[], [], st.nextArrayId⟩

end BaseRegistry

/-- Injection metadata attached to a class constructor, as read by
`BaseContainer.resolve` through `Reflect.getMetadata`:

* `cname` — `constructor.name`;
* `meta` — the `INJECTABLE_CONTAINER_KEY` metadata (owning container name);
  `none` models absent metadata (the source additionally rejects present but
  non-symbol metadata, a shape this model does not produce);
* `injMap` — the `INJECT_TOKEN_KEY` metadata, a `Map<number, symbol>` in
  insertion order; `none` models absent metadata;
* `paramCount` — the length of the `design:paramtypes` array (the source
  substitutes `[]` when the metadata is missing);
* `newId` — the identity of the constructor body, interpreted by
  `Env.ctorNew`. -/
structure Ctor where
  cname : String
  meta : Option Sym
  injMap : Option (List (Nat × Sym))
  paramCount : Nat
  newId : Nat
deriving DecidableEq, Repr

/-- A value stored in a container's `DEPENDENCIES` map, classified by the
shape tests of `BaseContainer.get`: `undefined`, a non-callable value (with an
identity tag), a function that has a `prototype` (class shape, carrying its
metadata), or a function without one (dynamic-factory shape, carrying the
identity of its body). -/
inductive CVal where
  | undef
  | data (d : Nat)
  | ctorF (c : Ctor)
  | factoryF (f : Nat)
deriving DecidableEq, Repr

/-- State of one `BaseContainer`: its `DEPENDENCIES` map, keyed by symbol
identity. -/
structure CState where
  deps : List (Sym × CVal)
deriving DecidableEq, Repr

/-- Containers are heap objects; the directory stores references to them. -/
abbrev ContainerId := Nat

/-- Process-wide state: the `containerRegistry` directory (a
`BaseRegistry<IContainer>`, so keyed by `String(name)`), the heap of container
objects, and the allocation counter for fresh containers. -/
structure Sys where
  directory : RegState ContainerId
  heap : List (ContainerId × CState)
  nextCid : Nat
deriving DecidableEq, Repr

/-- External code invoked by the container: `factEnv` gives the behavior of a
dynamic factory body (the source passes a resolution context; this model
covers factories whose result does not depend on it), `ctorNew` the behavior
of `new ctor(...args)`.  An `error` models a thrown exception. -/
structure Env where
  factEnv : Nat → Except String CVal
  ctorNew : Nat → List CVal → Except String CVal

/-- Errors raised by `BaseContainer` (the `code` field of the thrown
`BaseError`, with the diagnostic context reduced to the strings the claims
mention).  `invalidContainerRef` and `outOfFuel` are modelling artifacts: a
dangling container reference, and exhaustion of the explicit recursion
budget. -/
inductive CErr where
  | tokenNull
  | depNotFound (descr : String)
  | depAlreadyExists (descr : String)
  | depResolutionFailed (descr : String)
  | factoryExecutionFailed (descr : String)
  | classNotInjectable (cname : String)
  | containerNotFound (cname : String) (containerName : String)
  | missingInjectDecorator (cname : String) (idx : Nat)
  | missingInjectionMetadata (cname : String)
  | instantiationFailed (cname : String)
  | invalidContainerRef
  | outOfFuel
deriving DecidableEq, Repr

/-- Write one dependency entry of one container in the heap. -/
def heapSetDep (sys : Sys) (cid : ContainerId) (t : Sym) (v : CVal) : Sys :=
  match alGet cid sys.heap with
  | some cst => ⟨sys.directory, alSet cid ⟨alSet t v cst.deps⟩ sys.heap, sys.nextCid⟩
  | none => sys

/-- Instantiation step of `BaseContainer.resolve` (`new constructor(...args)`,
wrapped as `CONTAINER_INSTANTIATION_FAILED` on throw). -/
def instantiate (env : Env) (sys : Sys) (ctor : Ctor) (args : List CVal) :
    Except CErr CVal × Sys :=
  match env.ctorNew ctor.newId args with
  | .ok v => (.ok v, sys)
  | .error _ => (.error (.instantiationFailed ctor.cname), sys)

/-- `Math.max(...mapKeys)` over the (natural-number) keys of the injection
map, as used by the fallback path of `resolve`. -/
def maxKey (m : List (Nat × Sym)) : Nat :=
  m.foldl (fun acc p => max acc p.1) 0

mutual

/-- BaseContainer.get (container.class.ts lines 53-121).  Null-ish tokens are
rejected; a missing entry or a stored `undefined` raises the dependency-not-
found error; a prototype-bearing function with injectable metadata is resolved
through `resolve` and the instance memoized; a prototype-less function is run
as a dynamic factory and its result memoized; anything else is returned
directly.  Thrown errors leave already performed side effects in place. -/
def containerGet : Nat → Env → Sys → ContainerId → Option Sym → Except CErr CVal × Sys
  | 0, _, sys, _, _ => (.error .outOfFuel, sys)
  | fuel + 1, env, sys, cid, tok =>
    match tok with
    | none => (.error .tokenNull, sys)
    | some t =>
      match alGet cid sys.heap with
      | none => (.error .invalidContainerRef, sys)
      | some cst =>
        match (alGet t cst.deps).getD .undef with
        | .undef => (.error (.depNotFound t.descrStr), sys)
        | .ctorF c =>
          if c.meta.isSome then
            match containerResolve fuel env sys cid c with
            | (.ok inst, sys₁) => (.ok inst, heapSetDep sys₁ cid t inst)
            | (.error _, sys₁) => (.error (.depResolutionFailed t.descrStr), sys₁)
          else (.ok (.ctorF c), sys)
        | .factoryF f =>
          match env.factEnv f with
          | .ok inst => (.ok inst, heapSetDep sys cid t inst)
          | .error m => (.error (.factoryExecutionFailed m), sys)
        | v => (.ok v, sys)
termination_by fuel _ _ _ _ => (fuel, 0, 0)

/-- BaseContainer.resolve (lines 296-443).  Read the owning-container name
from the metadata (not-injectable error if absent), look the container up in
the process-wide directory (container-not-found error if absent), then either
take the fallback path (no `design:paramtypes` but a non-empty injection map)
or the main path (one parameter per `paramCount`, each token looked up in the
injection map), resolving every parameter with `get` on the owning container
and finally instantiating.  The receiver (`cid`) is used for none of it. -/
def containerResolve (fuel : Nat) (env : Env) (sys : Sys) (_cid : ContainerId) (ctor : Ctor) :
    Except CErr CVal × Sys :=
  match ctor.meta with
  | none => (.error (.classNotInjectable ctor.cname), sys)
  | some nm =>
    match BaseRegistry.get sys.directory (.symName nm) with
    | none => (.error (.containerNotFound ctor.cname nm.descrStr), sys)
    | some tcid =>
      match ctor.injMap with
      | some m =>
        if ctor.paramCount = 0 ∧ m ≠ [] then
          match resolveLoopA fuel env sys tcid ctor.cname m
              (List.replicate (maxKey m + 1) CVal.undef) with
          | (.ok args, sys₁) => instantiate env sys₁ ctor args
          | (.error e, sys₁) => (.error e, sys₁)
        else
          match resolveLoopB fuel env sys tcid ctor.cname m 0 ctor.paramCount with
          | (.ok args, sys₁) => instantiate env sys₁ ctor args
          | (.error e, sys₁) => (.error e, sys₁)
      | none =>
        if ctor.paramCount = 0 then instantiate env sys ctor []
        else (.error (.missingInjectionMetadata ctor.cname), sys)
termination_by (fuel, 2, 0)

/-- Fallback argument loop of `resolve` (lines 330-350): walk the injection
map in insertion order, fill the argument slot of each entry with the value
obtained from `get` on the owning container; a failure is wrapped as the
dependency-resolution error. -/
def resolveLoopA (fuel : Nat) (env : Env) (sys : Sys) (tcid : ContainerId) (cname : String) :
    List (Nat × Sym) → List CVal → Except CErr (List CVal) × Sys
  | [], args => (.ok args, sys)
  | (i, tok) :: rest, args =>
    match containerGet fuel env sys tcid (some tok) with
    | (.ok v, sys₁) => resolveLoopA fuel env sys₁ tcid cname rest (args.set i v)
    | (.error _, sys₁) => (.error (.depResolutionFailed cname), sys₁)
termination_by m _ => (fuel, 1, m.length)

/-- Main argument loop of `resolve` (lines 386-416): for each parameter index
in increasing order, find its token in the injection map (missing-decorator
error if absent) and resolve it with `get` on the owning container; a failure
is wrapped as the dependency-resolution error. -/
def resolveLoopB (fuel : Nat) (env : Env) (sys : Sys) (tcid : ContainerId) (cname : String)
    (m : List (Nat × Sym)) (i : Nat) : Nat → Except CErr (List CVal) × Sys
  | 0 => (.ok [], sys)
  | remaining + 1 =>
    match alGet i m with
    | none => (.error (.missingInjectDecorator cname i), sys)
    | some tok =>
      match containerGet fuel env sys tcid (some tok) with
      | (.error _, sys₁) => (.error (.depResolutionFailed cname), sys₁)
      | (.ok v, sys₁) =>
        match resolveLoopB fuel env sys₁ tcid cname m (i + 1) remaining with
        | (.ok args, sys₂) => (.ok (v :: args), sys₂)
        | (.error e, sys₂) => (.error e, sys₂)
termination_by r => (fuel, 1, r)

end

/-- BaseContainer.has (lines 180-192). -/
def containerHas (cst : CState) (tok : Option Sym) : Bool :=
  match tok with
  | none => false
  | some t => (alGet t cst.deps).isSome

/-- BaseContainer.register (lines 201-233): reject a null-ish token, reject a
token already present, otherwise store the implementation — including
`undefined` — under the symbol itself. -/
def containerRegister (cst : CState) (tok : Option Sym) (v : CVal) : Except CErr Unit × CState :=
  match tok with
  | none => (.error .tokenNull, cst)
  | some t =>
    if containerHas cst (some t) then (.error (.depAlreadyExists t.descrStr), cst)
    else (.ok (), ⟨alSet t v cst.deps⟩)

/-- BaseContainer.registerMany (lines 241-285): for each token present as an
own key of the implementations record, call `register` inside a try/catch that
logs the error and continues with the next token; tokens missing from the
record are skipped with a warning.  Per-entry errors therefore never escape
(the function itself throws only on malformed arguments, which the model's
types exclude). -/
def containerRegisterMany (cst : CState) (tokens : List Sym) (impls : List (Sym × CVal)) :
    CState :=
  match tokens with
  | [] => cst
  | t :: rest =>
    match alGet t impls with
    | some v =>
      match containerRegister cst (some t) v with
      | (.ok _, cst₁) => containerRegisterMany cst₁ rest impls
      | (.error _, cst₁) => containerRegisterMany cst₁ rest impls
    | none => containerRegisterMany cst rest impls

/-- BaseContainer constructor (lines 25-30): create the empty `DEPENDENCIES`
map, then `containerRegistry.register(options.name, this)`.  A directory
failure (duplicate name) propagates out of `new` and no container reference is
produced.  Container objects are truthy, so the directory's item check never
fires. -/
def newContainer (sys : Sys) (name : Sym) : Except RErr ContainerId × Sys :=
  let cid := sys.nextCid
  match BaseRegistry.register (fun _ => false) sys.directory (.symName name) cid with
  | (.ok _, dir₁) => (.ok cid, ⟨dir₁, alSet cid ⟨[]⟩ sys.heap, sys.nextCid + 1⟩)
  | (.error e, dir₁) => (.error e, ⟨dir₁, sys.heap, sys.nextCid⟩)

/-- Tokens of the parameter positions `i, i+1, …, i+r-1` read off a total
token assignment. -/
def idxTokens (toksF : Nat → Sym) (i : Nat) : Nat → List Sym
  | 0 => []
  | r + 1 => toksF i :: idxTokens toksF (i + 1) r

/-- Modelled from the spec (§4.3.1 steps 4-5): resolve each parameter token by
calling `get` on the owning container, strictly left to right, wrapping a
failure as the dependency-resolution error. -/
def specResolveParams (fuel : Nat) (env : Env) (sys : Sys) (tcid : ContainerId)
    (cname : String) : List Sym → Except CErr (List CVal) × Sys
  | [] => (.ok [], sys)
  | tok :: rest =>
    match containerGet fuel env sys tcid (some tok) with
    | (.error _, sys₁) => (.error (.depResolutionFailed cname), sys₁)
    | (.ok v, sys₁) =>
      match specResolveParams fuel env sys₁ tcid cname rest with
      | (.ok args, sys₂) => (.ok (v :: args), sys₂)
      | (.error e, sys₂) => (.error e, sys₂)

/-- Modelled from the spec (§4.3.1): the owning container resolves the given
parameter tokens left to right and the constructor is instantiated with the
results in parameter order. -/
def specOwnerResolve (fuel : Nat) (env : Env) (sys : Sys) (tcid : ContainerId)
    (ctor : Ctor) (toks : List Sym) : Except CErr CVal × Sys :=
  match specResolveParams fuel env sys tcid ctor.cname toks with
  | (.ok args, sys₁) => instantiate env sys₁ ctor args
  | (.error e, sys₁) => (.error e, sys₁)

/-- A stored value that `BaseContainer.get` hands back unchanged: neither
`undefined`, nor an injectable-marked class function, nor a prototype-less
function. -/
def inert : CVal → Bool
  | .data _ => true
  | .ctorF c => c.meta.isNone
  | _ => false

/-- A JS value in the factory/clone model: a primitive or a reference into the
heap.  The domain covers the plain-data templates the factory handles
(functions and class instances are outside it; on function-free data
`hasFunctions` is false for plain objects, so `structuredClone` and the manual
copy of `safeDeepClone` agree and are embedded as one structural copy). -/
inductive JVal where
  | vnull
  | vundef
  | vbool (b : Bool)
  | vnum (n : Int)
  | vstr (s : String)
  | vref (a : Nat)
deriving DecidableEq, Repr

/-- A heap object: a `Date`, an array, or a plain object with its own
enumerable string-keyed fields in insertion order. -/
inductive JObj where
  | jdate (t : Int)
  | jarr (elems : List JVal)
  | jplain (fields : List (String × JVal))
deriving DecidableEq, Repr

/-- The JS object heap, with an allocation counter; distinct addresses model
distinct object references. -/
structure Heap where
  objs : List (Nat × JObj)
  next : Nat
deriving DecidableEq, Repr

/-- JS truthiness of a value of this domain. -/
def jvalTruthy : JVal → Bool
  | .vnull => false
  | .vundef => false
  | .vbool b => b
  | .vnum n => !(n = 0)
  | .vstr s => !(s = "")
  | .vref _ => true

/-- Allocate a fresh heap cell. -/
def allocObj (h : Heap) (o : JObj) : JVal × Heap :=
  (.vref h.next, ⟨alSet h.next o h.objs, h.next + 1⟩)

mutual

/-- safeDeepClone (safe-deep-clone utility, lines 11-62) on this value domain.
Null-ish and primitive values are returned as-is; a `Date` is copied; an array
is cloned element by element; a plain object is copied field by field (on
function-free plain data the `structuredClone` fast path and the final manual
loop of the source compute this same structural copy).  Fuel bounds the
recursion depth — the source recurses on the object graph and has no cycle
detection on the manual path. -/
def safeDeepClone : Nat → Heap → JVal → Option (JVal × Heap)
  | 0, _, _ => none
  | fuel + 1, h, v =>
    match v with
    | .vref a =>
      match alGet a h.objs with
      | none => none
      | some (.jdate t) => some (allocObj h (.jdate t))
      | some (.jarr es) =>
        match cloneList fuel h es with
        | some (es₁, h₁) => some (allocObj h₁ (.jarr es₁))
        | none => none
      | some (.jplain fs) =>
        match cloneFields fuel h fs with
        | some (fs₁, h₁) => some (allocObj h₁ (.jplain fs₁))
        | none => none
    | w => some (w, h)
termination_by fuel _ _ => (fuel, 0, 0)

/-- Element-wise clone of an array (`source.map(item => safeDeepClone(item))`). -/
def cloneList : Nat → Heap → List JVal → Option (List JVal × Heap)
  | _, h, [] => some ([], h)
  | fuel, h, v :: rest =>
    match safeDeepClone fuel h v with
    | some (v₁, h₁) =>
      match cloneList fuel h₁ rest with
      | some (vs, h₂) => some (v₁ :: vs, h₂)
      | none => none
    | none => none
termination_by fuel _ l => (fuel, 1, l.length)

/-- Field-wise clone of a plain object (the own-key loop of the source). -/
def cloneFields : Nat → Heap → List (String × JVal) → Option (List (String × JVal) × Heap)
  | _, h, [] => some ([], h)
  | fuel, h, (k, v) :: rest =>
    match safeDeepClone fuel h v with
    | some (v₁, h₁) =>
      match cloneFields fuel h₁ rest with
      | some (fs, h₂) => some ((k, v₁) :: fs, h₂)
      | none => none
    | none => none
termination_by fuel _ l => (fuel, 1, l.length)

end

/-- The heap-free structure tree of a value: two values are deep-equal exactly
when they read back as the same tree. -/
inductive JTree where
  | tnull
  | tundef
  | tbool (b : Bool)
  | tnum (n : Int)
  | tstr (s : String)
  | tdate (t : Int)
  | tarr (ts : List JTree)
  | tplain (fs : List (String × JTree))

mutual

/-- Read the structure tree of a value through the heap, to the given depth. -/
def readVal : Nat → Heap → JVal → Option JTree
  | 0, _, _ => none
  | fuel + 1, h, v =>
    match v with
    | .vnull => some .tnull
    | .vundef => some .tundef
    | .vbool b => some (.tbool b)
    | .vnum n => some (.tnum n)
    | .vstr s => some (.tstr s)
    | .vref a =>
      match alGet a h.objs with
      | none => none
      | some (.jdate t) => some (.tdate t)
      | some (.jarr es) => (readList fuel h es).map .tarr
      | some (.jplain fs) => (readFields fuel h fs).map .tplain
termination_by fuel _ _ => (fuel, 0, 0)

/-- Read the structure trees of the elements of an array. -/
def readList : Nat → Heap → List JVal → Option (List JTree)
  | _, _, [] => some []
  | fuel, h, v :: vs =>
    match readVal fuel h v, readList fuel h vs with
    | some t, some ts => some (t :: ts)
    | _, _ => none
termination_by fuel _ l => (fuel, 1, l.length)

/-- Read the structure trees of the fields of a plain object. -/
def readFields : Nat → Heap → List (String × JVal) → Option (List (String × JTree))
  | _, _, [] => some []
  | fuel, h, (k, v) :: ps =>
    match readVal fuel h v, readFields fuel h ps with
    | some t, some ts => some ((k, t) :: ts)
    | _, _ => none
termination_by fuel _ l => (fuel, 1, l.length)

end

/-- Member values of a heap object. -/
def objVals : JObj → List JVal
  | .jdate _ => []
  | .jarr es => es
  | .jplain fs => fs.map Prod.snd

/-- Heap addresses reachable from a value: the address of the value itself
when it is a reference, and everything reachable through members of resolvable
objects.  Mutation performed through one value can affect another exactly when
their reachable address sets meet. -/
inductive Reach (h : Heap) : JVal → Nat → Prop
  | here (a : Nat) : Reach h (.vref a) a
  | step (a b : Nat) (o : JObj) (w : JVal) :
      alGet a h.objs = some o → w ∈ objVals o → Reach h w b → Reach h (.vref a) b

/-- Every bound address of the heap lies below the allocation counter. -/
def heapWF (h : Heap) : Prop :=
  ∀ p ∈ h.objs, p.1 < h.next

/-- Every address reachable from the value is allocated and resolvable. -/
def valClosed (h : Heap) (v : JVal) : Prop :=
  ∀ a, Reach h v a → a < h.next ∧ (alGet a h.objs).isSome

/-- The second heap preserves every binding of the first and allocates at
least as far. -/
def heapExtends (h h' : Heap) : Prop :=
  h.next ≤ h'.next ∧ ∀ a o, alGet a h.objs = some o → alGet a h'.objs = some o

/-- Errors raised by `BaseFactory.create` (`TEMPLATE_NOT_FOUND`), plus the
fuel-exhaustion artifact of the embedded cloner. -/
inductive FErr where
  | templateNotFound
  | cloneOutOfFuel
deriving DecidableEq, Repr

/-- State of one `BaseFactory` over its backing registry: the `CACHE` of
produced values, the `REGISTRY`, and the shared JS heap both live in. -/
structure FState where
  cache : List (String × JVal)
  reg : RegState JVal
  heap : Heap
deriving DecidableEq, Repr

/-- Cache-miss path of BaseFactory.create (factory.class.ts lines 78-93): look
the template up in the registry (`TEMPLATE_NOT_FOUND` when missing or falsy),
apply the transformer if one was configured — otherwise deep-clone the
template —, cache the produced value under the name, and return a deep clone
of it. -/
def factoryCreateMiss (fuel : Nat) (transformer : Option (Heap → JVal → JVal × Heap))
    (st : FState) (name : String) : Except FErr (JVal × FState) :=
  match BaseRegistry.get st.reg (.strName name) with
  | none => .error .templateNotFound
  | some tmpl =>
    if !jvalTruthy tmpl then .error .templateNotFound
    else
      match transformer with
      | some tr =>
        match tr st.heap tmpl with
        | (result, h₁) =>
          match safeDeepClone fuel h₁ result with
          | none => .error .cloneOutOfFuel
          | some (r, h₂) => .ok (r, ⟨alSet name result st.cache, st.reg, h₂⟩)
      | none =>
        match safeDeepClone fuel st.heap tmpl with
        | none => .error .cloneOutOfFuel
        | some (result, h₁) =>
          match safeDeepClone fuel h₁ result with
          | none => .error .cloneOutOfFuel
          | some (r, h₂) => .ok (r, ⟨alSet name result st.cache, st.reg, h₂⟩)

/-- BaseFactory.create (lines 67-94): a truthy cached value is served as a
fresh deep clone; otherwise the cache-miss path runs. -/
def factoryCreate (fuel : Nat) (transformer : Option (Heap → JVal → JVal × Heap))
    (st : FState) (name : String) : Except FErr (JVal × FState) :=
  match alGet name st.cache with
  | some c =>
    if jvalTruthy c then
      match safeDeepClone fuel st.heap c with
      | none => .error .cloneOutOfFuel
      | some (r, h₁) => .ok (r, ⟨st.cache, st.reg, h₁⟩)
    else factoryCreateMiss fuel transformer st name
  | none => factoryCreateMiss fuel transformer st name

/-- Every array identity stored in the query cache was allocated below the
counter.  This holds for every registry reachable by the public operations
(the empty registry trivially satisfies it, and every operation preserves
it). -/
def cacheWF (st : RegState α) : Prop :=
  ∀ p ∈ st.cache, p.2.1 < st.nextArrayId

/-- An environment where dynamic factory body 7 produces the prototype-less
function 8, and function 8 produces a plain value. -/
def envFnProducing : Env :=
  ⟨fun f => if f = 7 then .ok (.factoryF 8) else if f = 8 then .ok (.data 0) else .error "",
    fun _ _ => .error ""⟩

/-- A single container (id 0) with one token bound to dynamic factory 7. -/
def sysFnProducing : Sys :=
  ⟨emptyRegistry, [(0, ⟨[(⟨0, some "svc"⟩, .factoryF 7)]⟩)], 1⟩

/-- A constructor named Widget owned by container name Symbol(App), with one
parameter injected under the cfg token. -/
def ctorWidget : Ctor :=
  ⟨"Widget", some ⟨2, some "App"⟩, some [(0, ⟨1, some "cfg"⟩)], 1, 42⟩

/-- An environment whose constructor body 42 builds a plain instance. -/
def envWidget : Env :=
  ⟨fun _ => .error "",
    fun id args => if id = 42 then .ok (.data (100 + args.length)) else .error ""⟩

/-- The directory maps Symbol(App) to container 0, which binds the cfg token
to a plain value. -/
def sysWidget : Sys :=
  ⟨⟨[("Symbol(App)", 0)], [], 0⟩, [(0, ⟨[(⟨1, some "cfg"⟩, .data 5)]⟩)], 1⟩

/-- A plain-data template object used by the factory witness. -/
def pObjC6 : JObj := .jplain [("name", .vstr "std-dev"), ("cpu", .vnum 2)]

/-- A factory over one plain-data template named item1. -/
def fstC6 : FState := ⟨[], ⟨[("item1", .vref 0)], [], 0⟩, ⟨[(0, pObjC6)], 1⟩⟩

/-- The factory state after one create: the produced clone (address 1) is
cached and an independent clone (address 2) was returned. -/
def st1C6 : FState :=
  ⟨[("item1", .vref 1)], ⟨[("item1", .vref 0)], [], 0⟩,
    ⟨[(0, pObjC6), (1, pObjC6), (2, pObjC6)], 3⟩⟩

/-- The factory state after a second create, which served a fresh clone
(address 3) of the cached value. -/
def st2C6 : FState :=
  ⟨[("item1", .vref 1)], ⟨[("item1", .vref 0)], [], 0⟩,
    ⟨[(0, pObjC6), (1, pObjC6), (2, pObjC6), (3, pObjC6)], 4⟩⟩

theorem alGet_alSet_self [DecidableEq κ] (k : κ) (v : β) (l : List (κ × β)) :
    alGet k (alSet k v l) = some v := by
  induction l with
  | nil => simp [alGet, alSet]
  | cons p rest ih =>
    obtain ⟨k', v'⟩ := p
    by_cases h : k' = k
    · subst h
      simp [alGet, alSet]
    · simp [alGet, alSet, h, ih]

theorem alGet_alSet_ne [DecidableEq κ] (k a : κ) (v : β) (l : List (κ × β)) (h : a ≠ k) :
    alGet a (alSet k v l) = alGet a l := by
  induction l with
  | nil => simp [alGet, alSet, Ne.symm h]
  | cons p rest ih =>
    obtain ⟨k', v'⟩ := p
    by_cases hk : k' = k
    · subst hk
      simp [alGet, alSet, Ne.symm h]
    · simp [alGet, alSet, hk, ih]

theorem alGet_mem [DecidableEq κ] (k : κ) (v : β) (l : List (κ × β))
    (h : alGet k l = some v) : (k, v) ∈ l := by
  induction l with
  | nil => simp [alGet] at h
  | cons p rest ih =>
    obtain ⟨k', v'⟩ := p
    by_cases hk : k' = k
    · subst hk
      simp [alGet] at h
      subst h
      exact List.mem_cons_self _ _
    · simp only [alGet, if_neg hk] at h
      exact List.mem_cons_of_mem _ (ih h)

theorem mem_alSet [DecidableEq κ] (k : κ) (v : β) (l : List (κ × β)) (p : κ × β)
    (h : p ∈ alSet k v l) : p = (k, v) ∨ p ∈ l := by
  induction l with
  | nil => simpa [alSet] using h
  | cons q rest ih =>
    obtain ⟨k', v'⟩ := q
    by_cases hk : k' = k
    · subst hk
      simp only [alSet, if_pos rfl] at h
      rcases List.mem_cons.mp h with h | h
      · exact Or.inl h
      · exact Or.inr (List.mem_cons_of_mem _ h)
    · simp only [alSet, if_neg hk] at h
      rcases List.mem_cons.mp h with h | h
      · exact Or.inr (by simp [h])
      · rcases ih h with h | h
        · exact Or.inl h
        · exact Or.inr (List.mem_cons_of_mem _ h)

theorem register_fst_error_snd {α : Type} (falsy : α → Bool) (st : RegState α)
    (name : RName) (i : α) (e : RErr)
    (h : (BaseRegistry.register falsy st name i).1 = .error e) :
    BaseRegistry.register falsy st name i = (.error e, st) := by
  by_cases h1 : falsy i = true
  · have hr : BaseRegistry.register falsy st name i = (.error .itemNull, st) := by
      simp [BaseRegistry.register, h1]
    rw [hr] at h ⊢
    simp at h
    rw [h]
  · by_cases h2 : BaseRegistry.has st name = true
    · have hr : BaseRegistry.register falsy st name i = (.error .itemAlreadyExists, st) := by
        simp [BaseRegistry.register, h1, h2]
      rw [hr] at h ⊢
      simp at h
      rw [h]
    · have hr : (BaseRegistry.register falsy st name i).1 = .ok () := by
        simp [BaseRegistry.register, h1, h2]
      rw [hr] at h
      exact absurd h (by simp)

/-- C8: `BaseRegistry` stores every entry under `String(name)`: a second
symbol with the same description reads back the item registered under the
first, and registering under the second fails with the already-exists
error — registry entries are not distinguished by symbol identity. -/
theorem registry_symbol_keys_collapse {α : Type} (falsy : α → Bool) (st : RegState α)
    (s1 s2 : Sym) (item item2 : α)
    (hdescr : s1.descr = s2.descr)
    (hfree : BaseRegistry.has st (.symName s1) = false)
    (hitem : falsy item = false) (hitem2 : falsy item2 = false) :
    (BaseRegistry.register falsy st (.symName s1) item).1 = .ok () ∧
    BaseRegistry.has (BaseRegistry.register falsy st (.symName s1) item).2 (.symName s2)
      = true ∧
    BaseRegistry.get (BaseRegistry.register falsy st (.symName s1) item).2 (.symName s2)
      = some item ∧
    (BaseRegistry.register falsy (BaseRegistry.register falsy st (.symName s1) item).2
        (.symName s2) item2).1 = .error .itemAlreadyExists := by
  have hstr : (RName.symName s2).str = (RName.symName s1).str := by
    simp [RName.str, Sym.str, hdescr]
  have hreg : BaseRegistry.register falsy st (.symName s1) item
      = (.ok (), ⟨alSet (RName.symName s1).str item st.items, [], st.nextArrayId⟩) := by
    simp [BaseRegistry.register, hitem, hfree]
  refine ⟨by rw [hreg], ?_, ?_, ?_⟩
  · rw [hreg]
    simp [BaseRegistry.has, RName.truthy, hstr, alGet_alSet_self]
  · rw [hreg]
    simp [BaseRegistry.get, RName.truthy, hstr, alGet_alSet_self]
  · rw [hreg]
    simp [BaseRegistry.register, BaseRegistry.has, RName.truthy, hitem2, hstr,
      alGet_alSet_self]

/-- C8 witness: two distinct symbols both described "a" over a registry of
numbers. -/
theorem registry_symbol_keys_collapse_witness :
    (BaseRegistry.register (fun n => decide (n = 0)) (emptyRegistry (α := Nat))
        (.symName ⟨0, some "a"⟩) 1).1 = .ok () ∧
    BaseRegistry.has (BaseRegistry.register (fun n => decide (n = 0))
        (emptyRegistry (α := Nat)) (.symName ⟨0, some "a"⟩) 1).2 (.symName ⟨1, some "a"⟩)
      = true ∧
    BaseRegistry.get (BaseRegistry.register (fun n => decide (n = 0))
        (emptyRegistry (α := Nat)) (.symName ⟨0, some "a"⟩) 1).2 (.symName ⟨1, some "a"⟩)
      = some 1 ∧
    (BaseRegistry.register (fun n => decide (n = 0))
        (BaseRegistry.register (fun n => decide (n = 0)) (emptyRegistry (α := Nat))
          (.symName ⟨0, some "a"⟩) 1).2 (.symName ⟨1, some "a"⟩) 2).1
      = .error .itemAlreadyExists :=
  registry_symbol_keys_collapse (fun n => decide (n = 0)) emptyRegistry
    ⟨0, some "a"⟩ ⟨1, some "a"⟩ 1 2 rfl (by decide) (by decide) (by decide)

/-- C9: after `register(token, undefined)` on a container, `has(token)` is
true while `get(token)` raises the dependency-not-found error, because `get`
compares the stored value against `undefined` instead of consulting the key
set. -/
theorem container_undefined_like_unregistered (cst : CState) (t : Sym)
    (hfree : containerHas cst (some t) = false)
    (fuel : Nat) (env : Env) (sys : Sys) (cid : ContainerId)
    (hheap : alGet cid sys.heap = some (containerRegister cst (some t) CVal.undef).2) :
    (containerRegister cst (some t) CVal.undef).1 = .ok () ∧
    containerHas (containerRegister cst (some t) CVal.undef).2 (some t) = true ∧
    (containerGet (fuel + 1) env sys cid (some t)).1 = .error (.depNotFound t.descrStr) := by
  have hreg : containerRegister cst (some t) CVal.undef
      = (.ok (), ⟨alSet t CVal.undef cst.deps⟩) := by
    simp [containerRegister, hfree]
  rw [hreg] at hheap
  refine ⟨by rw [hreg], ?_, ?_⟩
  · rw [hreg]
    simp [containerHas, alGet_alSet_self]
  · rw [containerGet, hheap]
    simp [alGet_alSet_self]

/-- C9 witness: registering `undefined` for a concrete token. -/
theorem container_undefined_like_unregistered_witness :
    (containerRegister ⟨[]⟩ (some ⟨0, some "svc"⟩) CVal.undef).1 = .ok () ∧
    containerHas (containerRegister ⟨[]⟩ (some ⟨0, some "svc"⟩) CVal.undef).2
        (some ⟨0, some "svc"⟩) = true ∧
    (containerGet 1 ⟨fun _ => .error "", fun _ _ => .error ""⟩
        ⟨emptyRegistry, [(0, (containerRegister ⟨[]⟩ (some ⟨0, some "svc"⟩) CVal.undef).2)], 1⟩
        0 (some ⟨0, some "svc"⟩)).1 = .error (.depNotFound "svc") :=
  container_undefined_like_unregistered ⟨[]⟩ ⟨0, some "svc"⟩ (by decide) 0
    ⟨fun _ => .error "", fun _ _ => .error ""⟩
    ⟨emptyRegistry, [(0, (containerRegister ⟨[]⟩ (some ⟨0, some "svc"⟩) CVal.undef).2)], 1⟩
    0 (by decide)

/-- C10: constructing a container registers it in the process-wide directory
under its name as a side effect, and a second construction under the same
directory key fails with the directory's already-exists error, producing no
container. -/
theorem container_construction_registers_globally (sys : Sys) (name : Sym)
    (hfree : BaseRegistry.has sys.directory (.symName name) = false) :
    (newContainer sys name).1 = .ok sys.nextCid ∧
    BaseRegistry.get (newContainer sys name).2.directory (.symName name)
      = some sys.nextCid ∧
    ∀ name2 : Sym, name2.str = name.str →
      (newContainer (newContainer sys name).2 name2).1 = .error .itemAlreadyExists ∧
      (newContainer (newContainer sys name).2 name2).2.heap
        = (newContainer sys name).2.heap := by
  have hreg : BaseRegistry.register (fun _ => false) sys.directory (.symName name) sys.nextCid
      = (.ok (), ⟨alSet (RName.symName name).str sys.nextCid sys.directory.items, [],
          sys.directory.nextArrayId⟩) := by
    simp [BaseRegistry.register, hfree]
  have hnew : newContainer sys name
      = (.ok sys.nextCid,
          ⟨⟨alSet (RName.symName name).str sys.nextCid sys.directory.items, [],
            sys.directory.nextArrayId⟩, alSet sys.nextCid ⟨[]⟩ sys.heap, sys.nextCid + 1⟩) := by
    rw [newContainer, hreg]
  refine ⟨by rw [hnew], ?_, ?_⟩
  · rw [hnew]
    simp [BaseRegistry.get, RName.truthy, alGet_alSet_self]
  · intro name2 hstr
    have hstr2 : (RName.symName name2).str = (RName.symName name).str := by
      simpa [RName.str] using hstr
    have hfail : BaseRegistry.register (fun _ => false)
        (newContainer sys name).2.directory (.symName name2) (newContainer sys name).2.nextCid
        = (.error .itemAlreadyExists, (newContainer sys name).2.directory) := by
      rw [hnew]
      simp [BaseRegistry.register, BaseRegistry.has, RName.truthy, hstr2, alGet_alSet_self]
    constructor
    · rw [newContainer, hfail]
    · rw [newContainer, hfail]

/-- C10 witness: two constructions under the same symbol name on a fresh
system. -/
theorem container_construction_registers_globally_witness :
    (newContainer ⟨emptyRegistry, [], 0⟩ ⟨0, some "App"⟩).1 = .ok 0 ∧
    BaseRegistry.get (newContainer ⟨emptyRegistry, [], 0⟩ ⟨0, some "App"⟩).2.directory
        (.symName ⟨0, some "App"⟩) = some 0 ∧
    (newContainer (newContainer ⟨emptyRegistry, [], 0⟩ ⟨0, some "App"⟩).2 ⟨1, some "App"⟩).1
        = .error .itemAlreadyExists ∧
    (newContainer (newContainer ⟨emptyRegistry, [], 0⟩ ⟨0, some "App"⟩).2 ⟨1, some "App"⟩).2.heap
        = (newContainer ⟨emptyRegistry, [], 0⟩ ⟨0, some "App"⟩).2.heap := by
  have h := container_construction_registers_globally ⟨emptyRegistry, [], 0⟩ ⟨0, some "App"⟩
    (by decide)
  exact ⟨h.1, h.2.1, (h.2.2 ⟨1, some "App"⟩ rfl).1, (h.2.2 ⟨1, some "App"⟩ rfl).2⟩

/-- C4 (amended): reads treat an empty or null name as not found without
throwing; `unregister` rejects an empty or null name with the name-required
error before the map is touched; `register` validates only the item — a falsy
item is rejected with the invalid-item error, but the name is never checked,
so a truthy item under the empty name is stringified and inserted. -/
theorem registry_empty_name_policy {α : Type} (falsy : α → Bool) (st : RegState α)
    (item : α) :
    BaseRegistry.get st (.strName "") = none ∧
    BaseRegistry.get st .nullName = none ∧
    BaseRegistry.has st (.strName "") = false ∧
    BaseRegistry.has st .nullName = false ∧
    BaseRegistry.unregister st (.strName "") = (.error .nameRequired, st) ∧
    BaseRegistry.unregister st .nullName = (.error .nameRequired, st) ∧
    (falsy item = true →
      BaseRegistry.register falsy st (.strName "") item = (.error .itemNull, st)) ∧
    (falsy item = false →
      (BaseRegistry.register falsy st (.strName "") item).1 = .ok () ∧
      alGet "" (BaseRegistry.register falsy st (.strName "") item).2.items = some item) := by
  refine ⟨?_, ?_, ?_, ?_, ?_, ?_, ?_, ?_⟩
  · simp [BaseRegistry.get, RName.truthy]
  · simp [BaseRegistry.get, RName.truthy]
  · simp [BaseRegistry.has, RName.truthy]
  · simp [BaseRegistry.has, RName.truthy]
  · simp [BaseRegistry.unregister, RName.truthy]
  · simp [BaseRegistry.unregister, RName.truthy]
  · intro hf
    simp [BaseRegistry.register, hf]
  · intro hf
    have hr : BaseRegistry.register falsy st (.strName "") item
        = (.ok (), ⟨alSet "" item st.items, [], st.nextArrayId⟩) := by
      simp [BaseRegistry.register, BaseRegistry.has, RName.truthy, RName.str, hf]
    rw [hr]
    exact ⟨rfl, alGet_alSet_self "" item st.items⟩

/-- C4 counterexample: on an empty registry of numbers, `register` under the
empty name raises no error and mutates the backing map — the claimed write
rejection does not happen. -/
theorem registry_register_accepts_empty_name :
    BaseRegistry.register (fun n => decide (n = 0)) (emptyRegistry (α := Nat))
        (.strName "") 1
      = (.ok (), ⟨[("", 1)], [], 0⟩) := by
  rfl

/-- C4 witness: the amended policy at a concrete registry holding one item. -/
theorem registry_empty_name_policy_witness :
    BaseRegistry.get (⟨[("k", 7)], [], 0⟩ : RegState Nat) (.strName "") = none ∧
    BaseRegistry.get (⟨[("k", 7)], [], 0⟩ : RegState Nat) .nullName = none ∧
    BaseRegistry.has (⟨[("k", 7)], [], 0⟩ : RegState Nat) (.strName "") = false ∧
    BaseRegistry.has (⟨[("k", 7)], [], 0⟩ : RegState Nat) .nullName = false ∧
    BaseRegistry.unregister (⟨[("k", 7)], [], 0⟩ : RegState Nat) (.strName "")
      = (.error .nameRequired, ⟨[("k", 7)], [], 0⟩) ∧
    BaseRegistry.unregister (⟨[("k", 7)], [], 0⟩ : RegState Nat) .nullName
      = (.error .nameRequired, ⟨[("k", 7)], [], 0⟩) ∧
    ((fun n => decide (n = 0)) 3 = true →
      BaseRegistry.register (fun n => decide (n = 0)) (⟨[("k", 7)], [], 0⟩ : RegState Nat)
        (.strName "") 3 = (.error .itemNull, ⟨[("k", 7)], [], 0⟩)) ∧
    ((fun n => decide (n = 0)) 3 = false →
      (BaseRegistry.register (fun n => decide (n = 0)) (⟨[("k", 7)], [], 0⟩ : RegState Nat)
          (.strName "") 3).1 = .ok () ∧
      alGet "" (BaseRegistry.register (fun n => decide (n = 0))
          (⟨[("k", 7)], [], 0⟩ : RegState Nat) (.strName "") 3).2.items = some 3) :=
  registry_empty_name_policy (fun n => decide (n = 0)) ⟨[("k", 7)], [], 0⟩ 3

/-- C3 (amended): the two bulk registrations disagree on error policy.  On
`BaseRegistry`, a failing entry aborts the loop and the error propagates, with
the registrations made so far retained.  On `BaseContainer`, a failing entry
is caught and logged inside the loop: the error never reaches the caller, the
failing token keeps its old binding, and processing continues with the
remaining tokens. -/
theorem registerMany_error_propagation_policy {α : Type} (falsy : α → Bool) :
    (∀ (st st₁ : RegState α) (done : List (Sym × α)) (n : Sym) (i : α)
        (rest : List (Sym × α)) (e : RErr),
      BaseRegistry.registerMany falsy st done = (.ok (), st₁) →
      falsy i = false →
      (BaseRegistry.register falsy st₁ (.symName n) i).1 = .error e →
      BaseRegistry.registerMany falsy st (done ++ (n, i) :: rest) = (.error e, st₁)) ∧
    (∀ (cst : CState) (t : Sym) (rest : List Sym) (impls : List (Sym × CVal)) (v : CVal),
      alGet t impls = some v →
      containerHas cst (some t) = true →
      containerRegisterMany cst (t :: rest) impls = containerRegisterMany cst rest impls) := by
  constructor
  · intro st st₁ done
    induction done generalizing st with
    | nil =>
      intro n i rest e hdone hi hfail
      have hst : st₁ = st := by
        simpa [BaseRegistry.registerMany] using hdone.symm
      subst hst
      have hr := register_fst_error_snd falsy st₁ (.symName n) i e hfail
      simp [BaseRegistry.registerMany, hi, hr]
    | cons p done ih =>
      intro n i rest e hdone hi hfail
      obtain ⟨m, j⟩ := p
      simp only [BaseRegistry.registerMany] at hdone
      by_cases hj : falsy j = true
      · rw [if_pos hj] at hdone
        have := ih st n i rest e hdone hi hfail
        simp only [List.cons_append, BaseRegistry.registerMany]
        rw [if_pos hj]
        exact this
      · rw [if_neg hj] at hdone
        rcases hrm : BaseRegistry.register falsy st (.symName m) j with ⟨res, st'⟩
        rw [hrm] at hdone
        cases res with
        | ok u =>
          have := ih st' n i rest e hdone hi hfail
          simp only [List.cons_append, BaseRegistry.registerMany]
          rw [if_neg hj, hrm]
          exact this
        | error e' => simp at hdone
  · intro cst t rest impls v himpl hhas
    have hr : containerRegister cst (some t) v = (.error (.depAlreadyExists t.descrStr), cst) := by
      simp [containerRegister, hhas]
    simp only [containerRegisterMany, himpl, hr]

/-- C3 counterexample: with token a already bound, the single-entry register
fails with the already-exists error, yet `BaseContainer.registerMany` returns
normally, keeps the old binding and still registers the following token —
the error is caught and logged, not propagated. -/
theorem container_registerMany_swallows_entry_error :
    (containerRegister ⟨[(⟨0, some "a"⟩, CVal.data 1)]⟩ (some ⟨0, some "a"⟩)
        (CVal.data 2)).1 = .error (.depAlreadyExists "a") ∧
    containerRegisterMany ⟨[(⟨0, some "a"⟩, CVal.data 1)]⟩ [⟨0, some "a"⟩, ⟨1, some "b"⟩]
        [(⟨0, some "a"⟩, CVal.data 2), (⟨1, some "b"⟩, CVal.data 3)]
      = ⟨[(⟨0, some "a"⟩, CVal.data 1), (⟨1, some "b"⟩, CVal.data 3)]⟩ := by
  exact ⟨rfl, rfl⟩

/-- C3 witness: a duplicate symbol in the second position of a registry bulk
registration propagates the already-exists error and retains the first
registration. -/
theorem registerMany_error_propagation_policy_witness :
    BaseRegistry.registerMany (fun n => decide (n = 0)) (emptyRegistry (α := Nat))
        ([(⟨0, some "x"⟩, 1)] ++ (⟨1, some "x"⟩, 2) :: [])
      = (.error .itemAlreadyExists, ⟨[("Symbol(x)", 1)], [], 0⟩) := by
  have h := (registerMany_error_propagation_policy (α := Nat) (fun n => decide (n = 0))).1
    emptyRegistry ⟨[("Symbol(x)", 1)], [], 0⟩
    [(⟨0, some "x"⟩, 1)] ⟨1, some "x"⟩ 2 [] .itemAlreadyExists rfl (by decide) rfl
  exact h

/-- C7: on a cache miss, `getMany` returns exactly the items stored under the
present names, in the order of `names`, silently skipping absent names; the
result is cached under the comma-joined key — which is never the reserved
`getAll` key — and a repeat call with the same ordered sequence returns the
cached result (the same array). -/
theorem registry_getMany_ordered_subset_cached {α : Type} (st : RegState α)
    (names : List RName)
    (hmiss : alGet (BaseRegistry.getManyKey names) st.cache = none) :
    (BaseRegistry.getMany st names).1.2
        = names.filterMap (fun n => BaseRegistry.get st n) ∧
    BaseRegistry.getManyKey names ≠ "getAll" ∧
    alGet (BaseRegistry.getManyKey names) (BaseRegistry.getMany st names).2.cache
      = some (BaseRegistry.getMany st names).1 ∧
    BaseRegistry.getMany (BaseRegistry.getMany st names).2 names
      = ((BaseRegistry.getMany st names).1, (BaseRegistry.getMany st names).2) := by
  have hkey : BaseRegistry.getManyKey names ≠ "getAll" := by
    intro h
    have hlen := congrArg String.length h
    rw [BaseRegistry.getManyKey, String.length_append] at hlen
    have h8 : ("getMany:").length = 8 := rfl
    have h6 : ("getAll").length = 6 := rfl
    rw [h8, h6] at hlen
    omega
  have hgm : BaseRegistry.getMany st names
      = (⟨st.nextArrayId, names.filterMap (fun n => BaseRegistry.get st n)⟩,
          ⟨st.items, alSet (BaseRegistry.getManyKey names)
            (st.nextArrayId, names.filterMap (fun n => BaseRegistry.get st n)) st.cache,
            st.nextArrayId + 1⟩) := by
    simp only [BaseRegistry.getMany, hmiss]
  refine ⟨by rw [hgm], hkey, ?_, ?_⟩
  · rw [hgm]
    simp [alGet_alSet_self]
  · conv in BaseRegistry.getMany (BaseRegistry.getMany st names).2 names =>
      rw [hgm]
    rw [hgm]
    simp only [BaseRegistry.getMany, alGet_alSet_self]

/-- C7 witness: scenario A of the spec — only std-dev registered, a query for
std-dev and a missing name returns exactly the std-dev item, cached and served
again on the repeat call. -/
theorem registry_getMany_ordered_subset_cached_witness :
    (BaseRegistry.getMany (⟨[("std-dev", ("std-dev", 2))], [], 0⟩ : RegState (String × Nat))
        [.strName "std-dev", .strName "missing"]).1.2 = [("std-dev", 2)] ∧
    BaseRegistry.getManyKey [RName.strName "std-dev", RName.strName "missing"] ≠ "getAll" ∧
    alGet (BaseRegistry.getManyKey [RName.strName "std-dev", RName.strName "missing"])
        (BaseRegistry.getMany (⟨[("std-dev", ("std-dev", 2))], [], 0⟩ : RegState (String × Nat))
          [.strName "std-dev", .strName "missing"]).2.cache
      = some (BaseRegistry.getMany
          (⟨[("std-dev", ("std-dev", 2))], [], 0⟩ : RegState (String × Nat))
          [.strName "std-dev", .strName "missing"]).1 ∧
    BaseRegistry.getMany
        (BaseRegistry.getMany (⟨[("std-dev", ("std-dev", 2))], [], 0⟩ : RegState (String × Nat))
          [.strName "std-dev", .strName "missing"]).2
        [.strName "std-dev", .strName "missing"]
      = ((BaseRegistry.getMany
            (⟨[("std-dev", ("std-dev", 2))], [], 0⟩ : RegState (String × Nat))
            [.strName "std-dev", .strName "missing"]).1,
          (BaseRegistry.getMany
            (⟨[("std-dev", ("std-dev", 2))], [], 0⟩ : RegState (String × Nat))
            [.strName "std-dev", .strName "missing"]).2) := by
  have h := registry_getMany_ordered_subset_cached
    (⟨[("std-dev", ("std-dev", 2))], [], 0⟩ : RegState (String × Nat))
    [.strName "std-dev", .strName "missing"] rfl
  exact ⟨by rw [h.1]; rfl, h.2.1, h.2.2.1, h.2.2.2⟩

theorem unregisterMany_ok_cache {α : Type} :
    ∀ (names : List RName) (st : RegState α), names ≠ [] →
      (BaseRegistry.unregisterMany st names).1 = .ok () →
      (BaseRegistry.unregisterMany st names).2.cache = [] := by
  intro names
  induction names with
  | nil => intro st h; exact absurd rfl h
  | cons n rest ih =>
    intro st _ hok
    by_cases htr : n.truthy
    · have hu : BaseRegistry.unregister st n
          = (.ok (), ⟨alErase n.str st.items, [], st.nextArrayId⟩) := by
        simp [BaseRegistry.unregister, htr]
      simp only [BaseRegistry.unregisterMany, hu] at hok ⊢
      by_cases hrest : rest = []
      · subst hrest
        simp [BaseRegistry.unregisterMany]
      · exact ih _ hrest hok
    · have hu : BaseRegistry.unregister st n = (.error .nameRequired, st) := by
        simp [BaseRegistry.unregister, htr]
      simp only [BaseRegistry.unregisterMany, hu] at hok
      simp at hok

/-- C5: every operation that mutates the backing entries clears the whole
query cache — a successful `register`, any non-failing `unregister`,
`unregisterMany` over at least one name, and `clear` — and consequently a
`getAll` array obtained before a successful `register` is never the array
returned after it (their identities differ). -/
theorem registry_query_cache_coherence {α : Type} (falsy : α → Bool) (st : RegState α)
    (name : RName) (item : α) (names : List RName) (hWF : cacheWF st) :
    ((BaseRegistry.register falsy st name item).1 = .ok () →
      (BaseRegistry.register falsy st name item).2.cache = []) ∧
    ((BaseRegistry.unregister st name).1 = .ok () →
      (BaseRegistry.unregister st name).2.cache = []) ∧
    (names ≠ [] → (BaseRegistry.unregisterMany st names).1 = .ok () →
      (BaseRegistry.unregisterMany st names).2.cache = []) ∧
    (BaseRegistry.clear st).cache = [] ∧
    (∀ id1 l1 st1 st15 id2 l2 st2,
      BaseRegistry.getAll st = ((id1, l1), st1) →
      BaseRegistry.register falsy st1 name item = (.ok (), st15) →
      BaseRegistry.getAll st15 = ((id2, l2), st2) →
      id2 ≠ id1) := by
  refine ⟨?_, ?_, unregisterMany_ok_cache names st, rfl, ?_⟩
  · intro hok
    by_cases h1 : falsy item = true
    · simp [BaseRegistry.register, h1] at hok
    · by_cases h2 : BaseRegistry.has st name = true
      · simp [BaseRegistry.register, h1, h2] at hok
      · simp [BaseRegistry.register, h1, h2]
  · intro hok
    by_cases htr : name.truthy
    · simp [BaseRegistry.unregister, htr]
    · simp [BaseRegistry.unregister, htr] at hok
  · intro id1 l1 st1 st15 id2 l2 st2 h1 h2 h3
    have hid1 : id1 < st1.nextArrayId ∧ st.nextArrayId ≤ st1.nextArrayId := by
      rw [BaseRegistry.getAll] at h1
      rcases hc : alGet "getAll" st.cache with _ | p
      · rw [hc] at h1
        simp only at h1
        have he := congrArg Prod.snd h1
        have he1 := congrArg (fun q => q.1.1) h1
        simp at he he1
        rw [← he]
        simp
        omega
      · rw [hc] at h1
        simp only at h1
        have he : st = st1 := congrArg Prod.snd h1
        have he1 : p = (id1, l1) := congrArg Prod.fst h1
        have hp := hWF _ (alGet_mem _ _ _ hc)
        rw [← he]
        refine ⟨?_, Nat.le_refl _⟩
        have hfst : p.1 = id1 := by rw [he1]
        rw [← hfst]
        exact hp
    have h15 : st15.cache = [] ∧ st15.nextArrayId = st1.nextArrayId := by
      by_cases hf1 : falsy item = true
      · simp [BaseRegistry.register, hf1] at h2
      · by_cases hf2 : BaseRegistry.has st1 name = true
        · simp [BaseRegistry.register, hf1, hf2] at h2
        · simp [BaseRegistry.register, hf1, hf2] at h2
          rw [← h2]
          exact ⟨rfl, rfl⟩
    have hid2 : id2 = st15.nextArrayId := by
      rw [BaseRegistry.getAll] at h3
      rw [h15.1] at h3
      simp only [alGet] at h3
      have := congrArg (fun q => q.1.1) h3
      simpa using this.symm
    rw [hid2, h15.2]
    omega

/-- C5 witness: a registry holding one item with an empty cache; the cached
`getAll` identity before a register differs from the one after it. -/
theorem registry_query_cache_coherence_witness :
    ((BaseRegistry.register (fun n => decide (n = 0))
        (⟨[("a", 1)], [], 0⟩ : RegState Nat) (.strName "b") 2).1 = .ok () →
      (BaseRegistry.register (fun n => decide (n = 0))
        (⟨[("a", 1)], [], 0⟩ : RegState Nat) (.strName "b") 2).2.cache = []) ∧
    ((BaseRegistry.unregister (⟨[("a", 1)], [], 0⟩ : RegState Nat) (.strName "b")).1
        = .ok () →
      (BaseRegistry.unregister (⟨[("a", 1)], [], 0⟩ : RegState Nat)
        (.strName "b")).2.cache = []) ∧
    (([RName.strName "a"] : List RName) ≠ [] →
      (BaseRegistry.unregisterMany (⟨[("a", 1)], [], 0⟩ : RegState Nat)
          [RName.strName "a"]).1 = .ok () →
      (BaseRegistry.unregisterMany (⟨[("a", 1)], [], 0⟩ : RegState Nat)
          [RName.strName "a"]).2.cache = []) ∧
    (BaseRegistry.clear (⟨[("a", 1)], [], 0⟩ : RegState Nat)).cache = [] ∧
    (∀ id1 l1 st1 st15 id2 l2 st2,
      BaseRegistry.getAll (⟨[("a", 1)], [], 0⟩ : RegState Nat) = ((id1, l1), st1) →
      BaseRegistry.register (fun n => decide (n = 0)) st1 (.strName "b") 2
        = (.ok (), st15) →
      BaseRegistry.getAll st15 = ((id2, l2), st2) →
      id2 ≠ id1) :=
  registry_query_cache_coherence (fun n => decide (n = 0)) ⟨[("a", 1)], [], 0⟩
    (.strName "b") 2 [RName.strName "a"] (by intro p hp; cases hp)

theorem instantiate_snd (env : Env) (sys : Sys) (ctor : Ctor) (args : List CVal) :
    (instantiate env sys ctor args).2 = sys := by
  cases h : env.ctorNew ctor.newId args <;> simp [instantiate, h]

theorem heapSetDep_keys (sys : Sys) (cid : ContainerId) (t : Sym) (v : CVal)
    (c : ContainerId) (h : (alGet c sys.heap).isSome) :
    (alGet c (heapSetDep sys cid t v).heap).isSome := by
  rw [heapSetDep]
  cases hc : alGet cid sys.heap with
  | none => simpa using h
  | some cst =>
    simp only
    by_cases hcc : c = cid
    · subst hcc
      rw [alGet_alSet_self]
      rfl
    · rw [alGet_alSet_ne _ _ _ _ hcc]
      exact h

theorem heapSetDep_get_self (sys : Sys) (cid : ContainerId) (t : Sym) (v : CVal)
    (cst : CState) (h : alGet cid sys.heap = some cst) :
    alGet cid (heapSetDep sys cid t v).heap = some ⟨alSet t v cst.deps⟩ := by
  rw [heapSetDep, h]
  simp only
  exact alGet_alSet_self ..

theorem getD_undef_eq_some {o : Option CVal} {v : CVal}
    (h : o.getD .undef = v) (hne : v ≠ .undef) : o = some v := by
  cases o with
  | none =>
    simp only [Option.getD_none] at h
    exact absurd h.symm hne
  | some w =>
    simp only [Option.getD_some] at h
    rw [h]

theorem containerGet_inert (fuel2 : Nat) (env : Env) (sys₁ : Sys) (cid : ContainerId)
    (t : Sym) (v : CVal) (cst₁ : CState)
    (hc : alGet cid sys₁.heap = some cst₁)
    (hd : alGet t cst₁.deps = some v)
    (hv : inert v = true) :
    containerGet (fuel2 + 1) env sys₁ cid (some t) = (.ok v, sys₁) := by
  rw [containerGet, hc]
  simp only [hd, Option.getD_some]
  cases v with
  | undef => simp [inert] at hv
  | data d => rfl
  | factoryF f => simp [inert] at hv
  | ctorF c =>
    have hnone : c.meta = none := by
      have hv2 : c.meta.isNone = true := by simpa [inert] using hv
      exact Option.isNone_iff_eq_none.mp hv2
    simp [hnone]

theorem container_ops_preserve_heap_keys :
    ∀ fuel : Nat,
      (∀ (env : Env) (sys : Sys) (cid : ContainerId) (tok : Option Sym) (c : ContainerId),
        (alGet c sys.heap).isSome →
        (alGet c (containerGet fuel env sys cid tok).2.heap).isSome) ∧
      (∀ (env : Env) (sys : Sys) (tcid : ContainerId) (cname : String)
          (m : List (Nat × Sym)) (args : List CVal) (c : ContainerId),
        (alGet c sys.heap).isSome →
        (alGet c (resolveLoopA fuel env sys tcid cname m args).2.heap).isSome) ∧
      (∀ (env : Env) (sys : Sys) (tcid : ContainerId) (cname : String)
          (m : List (Nat × Sym)) (i r : Nat) (c : ContainerId),
        (alGet c sys.heap).isSome →
        (alGet c (resolveLoopB fuel env sys tcid cname m i r).2.heap).isSome) ∧
      (∀ (env : Env) (sys : Sys) (cid : ContainerId) (ctor : Ctor) (c : ContainerId),
        (alGet c sys.heap).isSome →
        (alGet c (containerResolve fuel env sys cid ctor).2.heap).isSome) := by
  have step_LA : ∀ fuel : Nat,
      (∀ (env : Env) (sys : Sys) (cid : ContainerId) (tok : Option Sym) (c : ContainerId),
        (alGet c sys.heap).isSome →
        (alGet c (containerGet fuel env sys cid tok).2.heap).isSome) →
      ∀ (env : Env) (sys : Sys) (tcid : ContainerId) (cname : String)
          (m : List (Nat × Sym)) (args : List CVal) (c : ContainerId),
        (alGet c sys.heap).isSome →
        (alGet c (resolveLoopA fuel env sys tcid cname m args).2.heap).isSome := by
    intro fuel hG env sys tcid cname m
    induction m generalizing sys with
    | nil => intro args c h; simpa [resolveLoopA] using h
    | cons p rest ih =>
      intro args c h
      obtain ⟨i, tok⟩ := p
      rcases hg : containerGet fuel env sys tcid (some tok) with ⟨res, sys₁⟩
      have h1 : (alGet c sys₁.heap).isSome := by
        have hh := hG env sys tcid (some tok) c h
        rw [hg] at hh
        exact hh
      cases res with
      | ok v =>
        simp only [resolveLoopA, hg]
        exact ih sys₁ (args.set i v) c h1
      | error e =>
        simp only [resolveLoopA, hg]
        exact h1
  have step_LB : ∀ fuel : Nat,
      (∀ (env : Env) (sys : Sys) (cid : ContainerId) (tok : Option Sym) (c : ContainerId),
        (alGet c sys.heap).isSome →
        (alGet c (containerGet fuel env sys cid tok).2.heap).isSome) →
      ∀ (env : Env) (sys : Sys) (tcid : ContainerId) (cname : String)
          (m : List (Nat × Sym)) (i r : Nat) (c : ContainerId),
        (alGet c sys.heap).isSome →
        (alGet c (resolveLoopB fuel env sys tcid cname m i r).2.heap).isSome := by
    intro fuel hG env sys tcid cname m i r
    induction r generalizing sys i with
    | zero => intro c h; simpa [resolveLoopB] using h
    | succ r ih =>
      intro c h
      cases halm : alGet i m with
      | none => simpa [resolveLoopB, halm] using h
      | some tok =>
        rcases hg : containerGet fuel env sys tcid (some tok) with ⟨res, sys₁⟩
        have h1 : (alGet c sys₁.heap).isSome := by
          have hh := hG env sys tcid (some tok) c h
          rw [hg] at hh
          exact hh
        cases res with
        | error e =>
          simp only [resolveLoopB, halm, hg]
          exact h1
        | ok v =>
          rcases hrec : resolveLoopB fuel env sys₁ tcid cname m (i + 1) r with ⟨res2, sys₂⟩
          have h2 : (alGet c sys₂.heap).isSome := by
            have hh := ih sys₁ (i + 1) c h1
            rw [hrec] at hh
            exact hh
          cases res2 with
          | ok args =>
            simp only [resolveLoopB, halm, hg, hrec]
            exact h2
          | error e =>
            simp only [resolveLoopB, halm, hg, hrec]
            exact h2
  have step_R : ∀ fuel : Nat,
      (∀ (env : Env) (sys : Sys) (tcid : ContainerId) (cname : String)
          (m : List (Nat × Sym)) (args : List CVal) (c : ContainerId),
        (alGet c sys.heap).isSome →
        (alGet c (resolveLoopA fuel env sys tcid cname m args).2.heap).isSome) →
      (∀ (env : Env) (sys : Sys) (tcid : ContainerId) (cname : String)
          (m : List (Nat × Sym)) (i r : Nat) (c : ContainerId),
        (alGet c sys.heap).isSome →
        (alGet c (resolveLoopB fuel env sys tcid cname m i r).2.heap).isSome) →
      ∀ (env : Env) (sys : Sys) (cid : ContainerId) (ctor : Ctor) (c : ContainerId),
        (alGet c sys.heap).isSome →
        (alGet c (containerResolve fuel env sys cid ctor).2.heap).isSome := by
    intro fuel hLA hLB env sys cid ctor c h
    rw [containerResolve]
    cases hm : ctor.meta with
    | none => simpa using h
    | some nm =>
      simp only
      cases hdir : BaseRegistry.get sys.directory (.symName nm) with
      | none => simpa using h
      | some tcid =>
        simp only
        cases hinj : ctor.injMap with
        | none =>
          simp only
          by_cases hp : ctor.paramCount = 0
          · rw [if_pos hp, instantiate_snd]
            exact h
          · rw [if_neg hp]
            exact h
        | some m =>
          simp only
          by_cases hcond : ctor.paramCount = 0 ∧ m ≠ []
          · rw [if_pos hcond]
            rcases hla : resolveLoopA fuel env sys tcid ctor.cname m
                (List.replicate (maxKey m + 1) CVal.undef) with ⟨res, sys₁⟩
            have h1 : (alGet c sys₁.heap).isSome := by
              have hh := hLA env sys tcid ctor.cname m
                (List.replicate (maxKey m + 1) CVal.undef) c h
              rw [hla] at hh
              exact hh
            cases res with
            | ok args =>
              simp only [hla, instantiate_snd]
              exact h1
            | error e =>
              simp only [hla]
              exact h1
          · rw [if_neg hcond]
            rcases hlb : resolveLoopB fuel env sys tcid ctor.cname m 0 ctor.paramCount
                with ⟨res, sys₁⟩
            have h1 : (alGet c sys₁.heap).isSome := by
              have hh := hLB env sys tcid ctor.cname m 0 ctor.paramCount c h
              rw [hlb] at hh
              exact hh
            cases res with
            | ok args =>
              simp only [hlb, instantiate_snd]
              exact h1
            | error e =>
              simp only [hlb]
              exact h1
  have step_G : ∀ fuel : Nat,
      (∀ (env : Env) (sys : Sys) (cid : ContainerId) (ctor : Ctor) (c : ContainerId),
        (alGet c sys.heap).isSome →
        (alGet c (containerResolve fuel env sys cid ctor).2.heap).isSome) →
      ∀ (env : Env) (sys : Sys) (cid : ContainerId) (tok : Option Sym) (c : ContainerId),
        (alGet c sys.heap).isSome →
        (alGet c (containerGet (fuel + 1) env sys cid tok).2.heap).isSome := by
    intro fuel hR env sys cid tok c h
    rw [containerGet.eq_def]
    simp only
    cases tok with
    | none => simpa using h
    | some t =>
      simp only
      cases hc : alGet cid sys.heap with
      | none => simpa using h
      | some cst =>
        simp only
        cases hval : (alGet t cst.deps).getD .undef with
        | undef => simpa using h
        | data d => simpa using h
        | factoryF f =>
          simp only
          cases hf : env.factEnv f with
          | ok inst =>
            simp only
            exact heapSetDep_keys sys cid t inst c h
          | error m => simpa using h
        | ctorF cc =>
          simp only
          by_cases hmm : cc.meta.isSome = true
          · rw [if_pos hmm]
            rcases hres : containerResolve fuel env sys cid cc with ⟨res, sys₁⟩
            have h1 : (alGet c sys₁.heap).isSome := by
              have hh := hR env sys cid cc c h
              rw [hres] at hh
              exact hh
            cases res with
            | ok inst =>
              simp only [hres]
              exact heapSetDep_keys sys₁ cid t inst c h1
            | error e =>
              simp only [hres]
              exact h1
          · rw [if_neg hmm]
            exact h
  intro fuel
  induction fuel with
  | zero =>
    have hG : ∀ (env : Env) (sys : Sys) (cid : ContainerId) (tok : Option Sym)
        (c : ContainerId), (alGet c sys.heap).isSome →
        (alGet c (containerGet 0 env sys cid tok).2.heap).isSome := by
      intro env sys cid tok c h
      simpa [containerGet] using h
    exact ⟨hG, step_LA 0 hG, step_LB 0 hG, step_R 0 (step_LA 0 hG) (step_LB 0 hG)⟩
  | succ fuel ih =>
    have hG := step_G fuel ih.2.2.2
    exact ⟨hG, step_LA _ hG, step_LB _ hG, step_R _ (step_LA _ hG) (step_LB _ hG)⟩

/-- C1 (amended): after the first successful `get` of a token, the produced
instance is memoized and every later `get` returns exactly that instance with
no further invocation and no state change — provided the produced instance is
inert: neither `undefined` nor itself shaped like a resolvable callable (an
injectable-marked class function or a prototype-less function).  A produced
value of those shapes is re-dispatched by the next `get` (re-resolved,
re-invoked, or reported not found), because `get` classifies the stored value
by shape on every call. -/
theorem container_get_memoizes_inert_results (fuel fuel2 : Nat) (env : Env)
    (sys sys₁ : Sys) (cid : ContainerId) (t : Sym) (v : CVal)
    (h1 : containerGet (fuel + 1) env sys cid (some t) = (.ok v, sys₁))
    (hv : inert v = true) :
    containerGet (fuel2 + 1) env sys₁ cid (some t) = (.ok v, sys₁) := by
  rw [containerGet] at h1
  cases hc : alGet cid sys.heap with
  | none =>
    rw [hc] at h1
    simp at h1
  | some cst =>
    rw [hc] at h1
    simp only at h1
    cases hval : (alGet t cst.deps).getD .undef with
    | undef =>
      rw [hval] at h1
      simp at h1
    | data d =>
      rw [hval] at h1
      simp only at h1
      have hva : CVal.data d = v := by
        have hf := congrArg Prod.fst h1
        simpa using hf
      have hsys : sys = sys₁ := congrArg Prod.snd h1
      subst hva
      subst hsys
      exact containerGet_inert fuel2 env sys cid t _ cst hc
        (getD_undef_eq_some hval (by simp)) hv
    | ctorF cc =>
      rw [hval] at h1
      simp only at h1
      by_cases hmm : cc.meta.isSome = true
      · rw [if_pos hmm] at h1
        rcases hres : containerResolve fuel env sys cid cc with ⟨res, sys'⟩
        rw [hres] at h1
        cases res with
        | error e => simp at h1
        | ok inst =>
          simp only at h1
          have hva : inst = v := by
            have hf := congrArg Prod.fst h1
            simpa using hf
          have hsys : heapSetDep sys' cid t inst = sys₁ := congrArg Prod.snd h1
          subst hva
          have hcid : (alGet cid sys'.heap).isSome := by
            have hp := (container_ops_preserve_heap_keys fuel).2.2.2 env sys cid cc cid
              (by rw [hc]; rfl)
            rw [hres] at hp
            exact hp
          obtain ⟨cst', hcst'⟩ := Option.isSome_iff_exists.mp hcid
          have hsd := heapSetDep_get_self sys' cid t inst cst' hcst'
          rw [hsys] at hsd
          exact containerGet_inert fuel2 env sys₁ cid t inst ⟨alSet t inst cst'.deps⟩
            hsd (alGet_alSet_self ..) hv
      · rw [if_neg hmm] at h1
        have hva : CVal.ctorF cc = v := by
          have hf := congrArg Prod.fst h1
          simpa using hf
        have hsys : sys = sys₁ := congrArg Prod.snd h1
        subst hva
        subst hsys
        exact containerGet_inert fuel2 env sys cid t _ cst hc
          (getD_undef_eq_some hval (by simp)) hv
    | factoryF f =>
      rw [hval] at h1
      simp only at h1
      cases hf : env.factEnv f with
      | error m =>
        rw [hf] at h1
        simp at h1
      | ok inst =>
        rw [hf] at h1
        simp only at h1
        have hva : inst = v := by
          have hfst := congrArg Prod.fst h1
          simpa using hfst
        have hsys : heapSetDep sys cid t inst = sys₁ := congrArg Prod.snd h1
        subst hva
        have hsd := heapSetDep_get_self sys cid t inst cst hc
        rw [hsys] at hsd
        exact containerGet_inert fuel2 env sys₁ cid t inst ⟨alSet t inst cst.deps⟩
          hsd (alGet_alSet_self ..) hv

/-- C1 counterexample: a dynamic factory that produces a prototype-less
function.  The first `get` returns the produced function (and memoizes it),
but the second `get` classifies the stored value as a dynamic factory again
and invokes it, returning a different value — the claim fails for this
producible value. -/
theorem container_get_redispatches_function_result :
    (containerGet 2 envFnProducing sysFnProducing 0 (some ⟨0, some "svc"⟩)).1
      = .ok (.factoryF 8) ∧
    (containerGet 2 envFnProducing
        (containerGet 2 envFnProducing sysFnProducing 0 (some ⟨0, some "svc"⟩)).2 0
        (some ⟨0, some "svc"⟩)).1 = .ok (.data 0) ∧
    CVal.factoryF 8 ≠ CVal.data 0 := by
  have h1 : containerGet 2 envFnProducing sysFnProducing 0 (some ⟨0, some "svc"⟩)
      = (.ok (.factoryF 8),
          ⟨emptyRegistry, [(0, ⟨[(⟨0, some "svc"⟩, .factoryF 8)]⟩)], 1⟩) := by
    simp [containerGet, envFnProducing, sysFnProducing, alGet, heapSetDep, alSet,
      emptyRegistry]
  refine ⟨by rw [h1], ?_, by decide⟩
  rw [h1]
  simp [containerGet, envFnProducing, alGet, heapSetDep, alSet]

/-- C1 witness: a dynamic factory producing a plain value is invoked once; the
second `get` serves the memoized instance unchanged. -/
theorem container_get_memoizes_inert_results_witness :
    containerGet 1 ⟨fun _ => .ok (.data 5), fun _ _ => .error ""⟩
        ⟨emptyRegistry, [(0, ⟨[(⟨1, some "svc"⟩, CVal.data 5)]⟩)], 1⟩ 0
        (some ⟨1, some "svc"⟩)
      = (.ok (.data 5), ⟨emptyRegistry, [(0, ⟨[(⟨1, some "svc"⟩, CVal.data 5)]⟩)], 1⟩) :=
  container_get_memoizes_inert_results 1 0
    ⟨fun _ => .ok (.data 5), fun _ _ => .error ""⟩
    ⟨emptyRegistry, [(0, ⟨[(⟨1, some "svc"⟩, CVal.factoryF 9)]⟩)], 1⟩
    ⟨emptyRegistry, [(0, ⟨[(⟨1, some "svc"⟩, CVal.data 5)]⟩)], 1⟩
    0 ⟨1, some "svc"⟩ (.data 5)
    (by simp [containerGet, alGet, heapSetDep, alSet]) (by decide)

theorem resolveLoopB_eq_spec (fuel : Nat) (env : Env) (tcid : ContainerId) (cname : String)
    (m : List (Nat × Sym)) (toksF : Nat → Sym) :
    ∀ (r i : Nat) (sys : Sys),
      (∀ j, j < r → alGet (i + j) m = some (toksF (i + j))) →
      resolveLoopB fuel env sys tcid cname m i r
        = specResolveParams fuel env sys tcid cname (idxTokens toksF i r) := by
  intro r
  induction r with
  | zero =>
    intro i sys h
    simp [resolveLoopB, idxTokens, specResolveParams]
  | succ r ih =>
    intro i sys h
    have h0 : alGet i m = some (toksF i) := by
      have hh := h 0 (Nat.succ_pos r)
      simpa using hh
    rcases hg : containerGet fuel env sys tcid (some (toksF i)) with ⟨res, sys₁⟩
    simp only [resolveLoopB, specResolveParams, idxTokens, h0, hg]
    cases res with
    | error e => rfl
    | ok v =>
      simp only
      have hshift : ∀ j, j < r → alGet (i + 1 + j) m = some (toksF (i + 1 + j)) := by
        intro j hj
        have hh := h (j + 1) (Nat.succ_lt_succ hj)
        have he : i + (j + 1) = i + 1 + j := by omega
        rw [he] at hh
        exact hh
      rw [ih (i + 1) sys₁ hshift]

/-- C2: `resolve` ignores the container it was invoked on; absent injection
metadata raises the not-injectable error; an owning-container name missing
from the process-wide directory raises the container-not-found error; and when
the owning container is found, a positive-arity constructor whose injection
map covers every parameter position is resolved exactly as the spec's routing
describes: every parameter token is resolved by calling `get` on the owning
container, strictly left to right by position, and the constructor is
instantiated with the results in parameter order. -/
theorem constructor_resolution_routing (fuel : Nat) (env : Env) (sys : Sys)
    (cid cid2 : ContainerId) (ctor : Ctor) :
    containerResolve fuel env sys cid ctor = containerResolve fuel env sys cid2 ctor ∧
    (ctor.meta = none →
      containerResolve fuel env sys cid ctor
        = (.error (.classNotInjectable ctor.cname), sys)) ∧
    (∀ nm, ctor.meta = some nm →
      BaseRegistry.get sys.directory (.symName nm) = none →
      containerResolve fuel env sys cid ctor
        = (.error (.containerNotFound ctor.cname nm.descrStr), sys)) ∧
    (∀ nm tcid m toksF, ctor.meta = some nm →
      BaseRegistry.get sys.directory (.symName nm) = some tcid →
      ctor.injMap = some m →
      0 < ctor.paramCount →
      (∀ j, j < ctor.paramCount → alGet j m = some (toksF j)) →
      containerResolve fuel env sys cid ctor
        = specOwnerResolve fuel env sys tcid ctor (idxTokens toksF 0 ctor.paramCount)) := by
  refine ⟨by rw [containerResolve.eq_def, containerResolve.eq_def], ?_, ?_, ?_⟩
  · intro hm
    rw [containerResolve, hm]
  · intro nm hm hdir
    rw [containerResolve, hm]
    simp only [hdir]
  · intro nm tcid m toksF hm hdir hinj hp hcov
    rw [containerResolve, hm]
    simp only [hdir, hinj]
    have hcond : ¬(ctor.paramCount = 0 ∧ m ≠ []) := by
      intro hcontra
      omega
    rw [if_neg hcond]
    have hshift : ∀ j, j < ctor.paramCount → alGet (0 + j) m = some (toksF (0 + j)) := by
      intro j hj
      simpa using hcov j hj
    rw [resolveLoopB_eq_spec fuel env tcid ctor.cname m toksF ctor.paramCount 0 sys hshift]
    rw [specOwnerResolve]

/-- C2 witness: the Widget constructor is resolved through receiver 99 yet its
parameter is fetched from owning container 0, matching the spec-side routed
resolution; the result is receiver-independent. -/
theorem constructor_resolution_routing_witness :
    containerResolve 1 envWidget sysWidget 99 ctorWidget
      = specOwnerResolve 1 envWidget sysWidget 0 ctorWidget
          (idxTokens (fun _ => ⟨1, some "cfg"⟩) 0 1) ∧
    containerResolve 1 envWidget sysWidget 99 ctorWidget
      = containerResolve 1 envWidget sysWidget 7 ctorWidget := by
  have h := constructor_resolution_routing 1 envWidget sysWidget 99 7 ctorWidget
  refine ⟨h.2.2.2 ⟨2, some "App"⟩ 0 [(0, ⟨1, some "cfg"⟩)] (fun _ => ⟨1, some "cfg"⟩)
    rfl rfl rfl (by decide) ?_, h.1⟩
  intro j hj
  have hp1 : ctorWidget.paramCount = 1 := rfl
  rw [hp1] at hj
  have hj0 : j = 0 := by omega
  subst hj0
  rfl

theorem heapExtends_refl (h : Heap) : heapExtends h h :=
  ⟨Nat.le_refl _, fun _ _ hx => hx⟩

theorem heapExtends_trans {h₁ h₂ h₃ : Heap}
    (h12 : heapExtends h₁ h₂) (h23 : heapExtends h₂ h₃) : heapExtends h₁ h₃ :=
  ⟨Nat.le_trans h12.1 h23.1, fun a o hx => h23.2 a o (h12.2 a o hx)⟩

theorem alGet_lt_next {h : Heap} (hW : heapWF h) {a : Nat} {o : JObj}
    (hx : alGet a h.objs = some o) : a < h.next :=
  hW (a, o) (alGet_mem _ _ _ hx)

theorem allocObj_WF {h : Heap} (hW : heapWF h) (o : JObj) :
    heapWF (allocObj h o).2 := by
  intro p hp
  simp only [allocObj] at hp ⊢
  rcases mem_alSet _ _ _ _ hp with h1 | h1
  · rw [h1]
    omega
  · have := hW p h1
    omega

theorem allocObj_extends {h : Heap} (hW : heapWF h) (o : JObj) :
    heapExtends h (allocObj h o).2 := by
  constructor
  · simp only [allocObj]
    omega
  · intro a ob hx
    simp only [allocObj]
    have hne : a ≠ h.next := by
      have := alGet_lt_next hW hx
      omega
    rw [alGet_alSet_ne _ _ _ _ hne]
    exact hx

theorem allocObj_find (h : Heap) (o : JObj) :
    alGet h.next (allocObj h o).2.objs = some o := by
  simp only [allocObj]
  exact alGet_alSet_self ..

theorem Reach_ref {h : Heap} {v : JVal} {a : Nat} (hr : Reach h v a) :
    ∃ b, v = .vref b := by
  cases hr with
  | here b => exact ⟨_, rfl⟩
  | step b c o w hf hm hrec => exact ⟨_, rfl⟩

theorem Reach_mono {h h' : Heap} (hx : heapExtends h h') {v : JVal} {a : Nat}
    (hr : Reach h v a) : Reach h' v a := by
  induction hr with
  | here b => exact Reach.here b
  | step b c o w hf hm hrec ih => exact Reach.step b c o w (hx.2 b o hf) hm ih

theorem valClosed_member {h : Heap} {a : Nat} {o : JObj} {w : JVal}
    (hcl : valClosed h (.vref a)) (hf : alGet a h.objs = some o)
    (hm : w ∈ objVals o) : valClosed h w := by
  intro c hrc
  exact hcl c (Reach.step a c o w hf hm hrc)

theorem Reach_back {h h' : Heap} (hx : heapExtends h h') {v : JVal} {a : Nat}
    (hr : Reach h' v a) : valClosed h v → Reach h v a := by
  induction hr with
  | here b => intro _; exact Reach.here b
  | step b c o w hf hm hrec ih =>
    intro hcl
    have hbsome : (alGet b h.objs).isSome := (hcl b (Reach.here b)).2
    obtain ⟨o', ho'⟩ := Option.isSome_iff_exists.mp hbsome
    have heq : o = o' := by
      have h2 := hx.2 b o' ho'
      rw [hf] at h2
      exact Option.some_inj.mp h2
    subst heq
    have hclw : valClosed h w := valClosed_member hcl ho' hm
    exact Reach.step b c o w ho' hm (ih hclw)

theorem valClosed_mono {h h' : Heap} (hx : heapExtends h h') {v : JVal}
    (hcl : valClosed h v) : valClosed h' v := by
  intro a hr
  have hr0 := Reach_back hx hr hcl
  obtain ⟨hlt, hsome⟩ := hcl a hr0
  obtain ⟨o, ho⟩ := Option.isSome_iff_exists.mp hsome
  refine ⟨Nat.lt_of_lt_of_le hlt hx.1, ?_⟩
  rw [hx.2 a o ho]
  rfl

theorem readVal_mono :
    ∀ (fuel : Nat) (h h' : Heap), heapExtends h h' →
      (∀ v t, readVal fuel h v = some t → readVal fuel h' v = some t) ∧
      (∀ vs ts, readList fuel h vs = some ts → readList fuel h' vs = some ts) ∧
      (∀ ps ts, readFields fuel h ps = some ts → readFields fuel h' ps = some ts) := by
  intro fuel
  induction fuel with
  | zero =>
    intro h h' hx
    refine ⟨?_, ?_, ?_⟩
    · intro v t hv
      simp [readVal] at hv
    · intro vs ts hv
      cases vs with
      | nil => simpa [readList] using hv
      | cons v vs => simp [readList, readVal] at hv
    · intro ps ts hv
      cases ps with
      | nil => simpa [readFields] using hv
      | cons p ps =>
        obtain ⟨k, v⟩ := p
        simp [readFields, readVal] at hv
  | succ fuel ih =>
    intro h h' hx
    have hval : ∀ v t, readVal (fuel + 1) h v = some t →
        readVal (fuel + 1) h' v = some t := by
      intro v t hv
      cases v with
      | vnull => simpa [readVal] using hv
      | vundef => simpa [readVal] using hv
      | vbool b => simpa [readVal] using hv
      | vnum n => simpa [readVal] using hv
      | vstr s => simpa [readVal] using hv
      | vref a =>
        rw [readVal] at hv ⊢
        cases hga : alGet a h.objs with
        | none =>
          rw [hga] at hv
          simp at hv
        | some ob =>
          rw [hga] at hv
          rw [hx.2 a ob hga]
          cases ob with
          | jdate tt => simpa using hv
          | jarr es =>
            simp only at hv ⊢
            cases hrl : readList fuel h es with
            | none =>
              rw [hrl] at hv
              simp at hv
            | some ts =>
              rw [hrl] at hv
              rw [(ih h h' hx).2.1 es ts hrl]
              exact hv
          | jplain fs =>
            simp only at hv ⊢
            cases hrl : readFields fuel h fs with
            | none =>
              rw [hrl] at hv
              simp at hv
            | some ts =>
              rw [hrl] at hv
              rw [(ih h h' hx).2.2 fs ts hrl]
              exact hv
    refine ⟨hval, ?_, ?_⟩
    · intro vs
      induction vs with
      | nil => intro ts hv; simpa [readList] using hv
      | cons v vs ihl =>
        intro ts hv
        rw [readList] at hv ⊢
        cases hv1 : readVal (fuel + 1) h v with
        | none =>
          rw [hv1] at hv
          simp at hv
        | some t1 =>
          rw [hv1] at hv
          cases hv2 : readList (fuel + 1) h vs with
          | none =>
            rw [hv2] at hv
            simp at hv
          | some ts2 =>
            rw [hv2] at hv
            rw [hval v t1 hv1, ihl ts2 hv2]
            exact hv
    · intro ps
      induction ps with
      | nil => intro ts hv; simpa [readFields] using hv
      | cons p ps ihl =>
        intro ts hv
        obtain ⟨k, v⟩ := p
        rw [readFields] at hv ⊢
        cases hv1 : readVal (fuel + 1) h v with
        | none =>
          rw [hv1] at hv
          simp at hv
        | some t1 =>
          rw [hv1] at hv
          cases hv2 : readFields (fuel + 1) h ps with
          | none =>
            rw [hv2] at hv
            simp at hv
          | some ts2 =>
            rw [hv2] at hv
            rw [hval v t1 hv1, ihl ts2 hv2]
            exact hv

theorem clone_truthy {fuel : Nat} {h : Heap} {v v' : JVal} {h' : Heap}
    (hc : safeDeepClone fuel h v = some (v', h')) : jvalTruthy v' = jvalTruthy v := by
  cases fuel with
  | zero => simp [safeDeepClone] at hc
  | succ fuel =>
    cases v with
    | vnull => simp [safeDeepClone] at hc; rw [← hc.1]
    | vundef => simp [safeDeepClone] at hc; rw [← hc.1]
    | vbool b => simp [safeDeepClone] at hc; rw [← hc.1]
    | vnum n => simp [safeDeepClone] at hc; rw [← hc.1]
    | vstr s => simp [safeDeepClone] at hc; rw [← hc.1]
    | vref a =>
      rw [safeDeepClone] at hc
      cases hga : alGet a h.objs with
      | none =>
        rw [hga] at hc
        simp at hc
      | some ob =>
        rw [hga] at hc
        cases ob with
        | jdate t =>
          simp only [allocObj, Option.some.injEq, Prod.mk.injEq] at hc
          rw [← hc.1]
          rfl
        | jarr es =>
          simp only at hc
          cases hcl : cloneList fuel h es with
          | none =>
            rw [hcl] at hc
            simp at hc
          | some p =>
            rw [hcl] at hc
            obtain ⟨es₁, h₁⟩ := p
            simp only [allocObj, Option.some.injEq, Prod.mk.injEq] at hc
            rw [← hc.1]
            rfl
        | jplain fs =>
          simp only at hc
          cases hcl : cloneFields fuel h fs with
          | none =>
            rw [hcl] at hc
            simp at hc
          | some p =>
            rw [hcl] at hc
            obtain ⟨fs₁, h₁⟩ := p
            simp only [allocObj, Option.some.injEq, Prod.mk.injEq] at hc
            rw [← hc.1]
            rfl

theorem readVal_ext_closed :
    ∀ (fuel : Nat) (h h' : Heap), heapExtends h h' →
      (∀ v, valClosed h v → readVal fuel h' v = readVal fuel h v) ∧
      (∀ vs, (∀ w ∈ vs, valClosed h w) → readList fuel h' vs = readList fuel h vs) ∧
      (∀ ps, (∀ p ∈ ps, valClosed h p.2) → readFields fuel h' ps = readFields fuel h ps) := by
  intro fuel
  induction fuel with
  | zero =>
    intro h h' hx
    refine ⟨?_, ?_, ?_⟩
    · intro v _
      simp [readVal]
    · intro vs _
      cases vs with
      | nil => simp [readList]
      | cons v vs => simp [readList, readVal]
    · intro ps _
      cases ps with
      | nil => simp [readFields]
      | cons p ps =>
        obtain ⟨k, v⟩ := p
        simp [readFields, readVal]
  | succ fuel ih =>
    intro h h' hx
    have hval : ∀ v, valClosed h v → readVal (fuel + 1) h' v = readVal (fuel + 1) h v := by
      intro v hcl
      cases v with
      | vnull => simp [readVal]
      | vundef => simp [readVal]
      | vbool b => simp [readVal]
      | vnum n => simp [readVal]
      | vstr s => simp [readVal]
      | vref a =>
        have hsome := (hcl a (Reach.here a)).2
        obtain ⟨o, ho⟩ := Option.isSome_iff_exists.mp hsome
        have ho' : alGet a h'.objs = some o := hx.2 a o ho
        rw [readVal, readVal, ho, ho']
        cases o with
        | jdate t => rfl
        | jarr es =>
          simp only
          rw [(ih h h' hx).2.1 es
            (fun w hw => valClosed_member hcl ho (by simpa [objVals] using hw))]
        | jplain fs =>
          simp only
          rw [(ih h h' hx).2.2 fs
            (fun p hp => valClosed_member hcl ho
              (by simpa [objVals] using List.mem_map_of_mem Prod.snd hp))]
    refine ⟨hval, ?_, ?_⟩
    · intro vs
      induction vs with
      | nil => intro _; simp [readList]
      | cons v vs ihl =>
        intro hcl
        rw [readList, readList]
        rw [hval v (hcl v (List.mem_cons_self _ _)),
          ihl (fun w hw => hcl w (List.mem_cons_of_mem _ hw))]
    · intro ps
      induction ps with
      | nil => intro _; simp [readFields]
      | cons p ps ihl =>
        intro hcl
        obtain ⟨k, v⟩ := p
        rw [readFields, readFields]
        rw [hval v (hcl (k, v) (List.mem_cons_self _ _)),
          ihl (fun q hq => hcl q (List.mem_cons_of_mem _ hq))]

theorem cloneSound :
    ∀ fuel : Nat,
      (∀ (h : Heap) (v v' : JVal) (h' : Heap), heapWF h → valClosed h v →
        safeDeepClone fuel h v = some (v', h') →
        heapWF h' ∧ heapExtends h h' ∧ valClosed h' v' ∧
        (∀ a, Reach h' v' a → h.next ≤ a) ∧
        readVal fuel h' v' = readVal fuel h v ∧
        (readVal fuel h v).isSome) ∧
      (∀ (h : Heap) (vs vs' : List JVal) (h' : Heap), heapWF h →
        (∀ w ∈ vs, valClosed h w) →
        cloneList fuel h vs = some (vs', h') →
        heapWF h' ∧ heapExtends h h' ∧ (∀ w ∈ vs', valClosed h' w) ∧
        (∀ w ∈ vs', ∀ a, Reach h' w a → h.next ≤ a) ∧
        readList fuel h' vs' = readList fuel h vs ∧
        (readList fuel h vs).isSome) ∧
      (∀ (h : Heap) (ps ps' : List (String × JVal)) (h' : Heap), heapWF h →
        (∀ p ∈ ps, valClosed h p.2) →
        cloneFields fuel h ps = some (ps', h') →
        heapWF h' ∧ heapExtends h h' ∧ (∀ p ∈ ps', valClosed h' p.2) ∧
        (∀ p ∈ ps', ∀ a, Reach h' p.2 a → h.next ≤ a) ∧
        readFields fuel h' ps' = readFields fuel h ps ∧
        (readFields fuel h ps).isSome) := by
  have step_CL : ∀ fuel : Nat,
      (∀ (h : Heap) (v v' : JVal) (h' : Heap), heapWF h → valClosed h v →
        safeDeepClone fuel h v = some (v', h') →
        heapWF h' ∧ heapExtends h h' ∧ valClosed h' v' ∧
        (∀ a, Reach h' v' a → h.next ≤ a) ∧
        readVal fuel h' v' = readVal fuel h v ∧
        (readVal fuel h v).isSome) →
      ∀ (h : Heap) (vs vs' : List JVal) (h' : Heap), heapWF h →
        (∀ w ∈ vs, valClosed h w) →
        cloneList fuel h vs = some (vs', h') →
        heapWF h' ∧ heapExtends h h' ∧ (∀ w ∈ vs', valClosed h' w) ∧
        (∀ w ∈ vs', ∀ a, Reach h' w a → h.next ≤ a) ∧
        readList fuel h' vs' = readList fuel h vs ∧
        (readList fuel h vs).isSome := by
    intro fuel hCV h vs
    induction vs generalizing h with
    | nil =>
      intro vs' h' hW _ hc
      rw [cloneList] at hc
      simp only [Option.some.injEq, Prod.mk.injEq] at hc
      obtain ⟨rfl, rfl⟩ := hc
      exact ⟨hW, heapExtends_refl h, by simp, by simp, rfl, by simp [readList]⟩
    | cons v vs ihl =>
      intro vs' h' hW hclv hc
      rw [cloneList] at hc
      cases hcv : safeDeepClone fuel h v with
      | none =>
        rw [hcv] at hc
        simp at hc
      | some p =>
        rw [hcv] at hc
        obtain ⟨v₁, h₁⟩ := p
        simp only at hc
        cases hcl2 : cloneList fuel h₁ vs with
        | none =>
          rw [hcl2] at hc
          simp at hc
        | some q =>
          rw [hcl2] at hc
          obtain ⟨vs₁, h₂⟩ := q
          simp only [Option.some.injEq, Prod.mk.injEq] at hc
          obtain ⟨rfl, rfl⟩ := hc
          have hheadcl : valClosed h v := hclv v (List.mem_cons_self _ _)
          have htailcl : ∀ w ∈ vs, valClosed h w :=
            fun w hw => hclv w (List.mem_cons_of_mem _ hw)
          obtain ⟨hW1, hx1, hcl1, hfr1, hrdEq1, hsm1⟩ := hCV h v v₁ h₁ hW hheadcl hcv
          have htailcl1 : ∀ w ∈ vs, valClosed h₁ w :=
            fun w hw => valClosed_mono hx1 (htailcl w hw)
          obtain ⟨hW2, hx2, hclL, hfrL, hrdEqL, hsmL⟩ := ihl h₁ vs₁ h₂ hW1 htailcl1 hcl2
          have htailEq : readList fuel h₁ vs = readList fuel h vs :=
            (readVal_ext_closed fuel h h₁ hx1).2.1 vs htailcl
          refine ⟨hW2, heapExtends_trans hx1 hx2, ?_, ?_, ?_, ?_⟩
          · intro w hw
            rcases List.mem_cons.mp hw with rfl | hw
            · exact valClosed_mono hx2 hcl1
            · exact hclL w hw
          · intro w hw a hra
            rcases List.mem_cons.mp hw with rfl | hw
            · exact hfr1 a (Reach_back hx2 hra hcl1)
            · exact Nat.le_trans hx1.1 (hfrL w hw a hra)
          · rw [readList, readList]
            rw [(readVal_ext_closed fuel h₁ h₂ hx2).1 v₁ hcl1, hrdEq1]
            rw [hrdEqL, htailEq]
          · rw [readList]
            obtain ⟨t1, ht1⟩ := Option.isSome_iff_exists.mp hsm1
            have hsmtail : (readList fuel h vs).isSome := by
              rw [← htailEq]
              exact hsmL
            obtain ⟨ts, hts⟩ := Option.isSome_iff_exists.mp hsmtail
            rw [ht1, hts]
            rfl
  have step_CF : ∀ fuel : Nat,
      (∀ (h : Heap) (v v' : JVal) (h' : Heap), heapWF h → valClosed h v →
        safeDeepClone fuel h v = some (v', h') →
        heapWF h' ∧ heapExtends h h' ∧ valClosed h' v' ∧
        (∀ a, Reach h' v' a → h.next ≤ a) ∧
        readVal fuel h' v' = readVal fuel h v ∧
        (readVal fuel h v).isSome) →
      ∀ (h : Heap) (ps ps' : List (String × JVal)) (h' : Heap), heapWF h →
        (∀ p ∈ ps, valClosed h p.2) →
        cloneFields fuel h ps = some (ps', h') →
        heapWF h' ∧ heapExtends h h' ∧ (∀ p ∈ ps', valClosed h' p.2) ∧
        (∀ p ∈ ps', ∀ a, Reach h' p.2 a → h.next ≤ a) ∧
        readFields fuel h' ps' = readFields fuel h ps ∧
        (readFields fuel h ps).isSome := by
    intro fuel hCV h ps
    induction ps generalizing h with
    | nil =>
      intro ps' h' hW _ hc
      rw [cloneFields] at hc
      simp only [Option.some.injEq, Prod.mk.injEq] at hc
      obtain ⟨rfl, rfl⟩ := hc
      exact ⟨hW, heapExtends_refl h, by simp, by simp, rfl, by simp [readFields]⟩
    | cons p ps ihl =>
      intro ps' h' hW hclv hc
      obtain ⟨k, v⟩ := p
      rw [cloneFields] at hc
      cases hcv : safeDeepClone fuel h v with
      | none =>
        rw [hcv] at hc
        simp at hc
      | some q =>
        rw [hcv] at hc
        obtain ⟨v₁, h₁⟩ := q
        simp only at hc
        cases hcl2 : cloneFields fuel h₁ ps with
        | none =>
          rw [hcl2] at hc
          simp at hc
        | some q2 =>
          rw [hcl2] at hc
          obtain ⟨ps₁, h₂⟩ := q2
          simp only [Option.some.injEq, Prod.mk.injEq] at hc
          obtain ⟨rfl, rfl⟩ := hc
          have hheadcl : valClosed h v := hclv (k, v) (List.mem_cons_self _ _)
          have htailcl : ∀ q ∈ ps, valClosed h q.2 :=
            fun q hq => hclv q (List.mem_cons_of_mem _ hq)
          obtain ⟨hW1, hx1, hcl1, hfr1, hrdEq1, hsm1⟩ := hCV h v v₁ h₁ hW hheadcl hcv
          have htailcl1 : ∀ q ∈ ps, valClosed h₁ q.2 :=
            fun q hq => valClosed_mono hx1 (htailcl q hq)
          obtain ⟨hW2, hx2, hclL, hfrL, hrdEqL, hsmL⟩ := ihl h₁ ps₁ h₂ hW1 htailcl1 hcl2
          have htailEq : readFields fuel h₁ ps = readFields fuel h ps :=
            (readVal_ext_closed fuel h h₁ hx1).2.2 ps htailcl
          refine ⟨hW2, heapExtends_trans hx1 hx2, ?_, ?_, ?_, ?_⟩
          · intro q hq
            rcases List.mem_cons.mp hq with rfl | hq
            · exact valClosed_mono hx2 hcl1
            · exact hclL q hq
          · intro q hq a hra
            rcases List.mem_cons.mp hq with rfl | hq
            · exact hfr1 a (Reach_back hx2 hra hcl1)
            · exact Nat.le_trans hx1.1 (hfrL q hq a hra)
          · rw [readFields, readFields]
            rw [(readVal_ext_closed fuel h₁ h₂ hx2).1 v₁ hcl1, hrdEq1]
            rw [hrdEqL, htailEq]
          · rw [readFields]
            obtain ⟨t1, ht1⟩ := Option.isSome_iff_exists.mp hsm1
            have hsmtail : (readFields fuel h ps).isSome := by
              rw [← htailEq]
              exact hsmL
            obtain ⟨ts, hts⟩ := Option.isSome_iff_exists.mp hsmtail
            rw [ht1, hts]
            rfl
  intro fuel
  induction fuel with
  | zero =>
    have hCV : ∀ (h : Heap) (v v' : JVal) (h' : Heap), heapWF h → valClosed h v →
        safeDeepClone 0 h v = some (v', h') →
        heapWF h' ∧ heapExtends h h' ∧ valClosed h' v' ∧
        (∀ a, Reach h' v' a → h.next ≤ a) ∧
        readVal 0 h' v' = readVal 0 h v ∧
        (readVal 0 h v).isSome := by
      intro h v v' h' _ _ hc
      simp [safeDeepClone] at hc
    exact ⟨hCV, step_CL 0 hCV, step_CF 0 hCV⟩
  | succ fuel ih =>
    have hCV : ∀ (h : Heap) (v v' : JVal) (h' : Heap), heapWF h → valClosed h v →
        safeDeepClone (fuel + 1) h v = some (v', h') →
        heapWF h' ∧ heapExtends h h' ∧ valClosed h' v' ∧
        (∀ a, Reach h' v' a → h.next ≤ a) ∧
        readVal (fuel + 1) h' v' = readVal (fuel + 1) h v ∧
        (readVal (fuel + 1) h v).isSome := by
      intro h v v' h' hW hclv hc
      cases v with
      | vnull =>
        simp only [safeDeepClone, Option.some.injEq, Prod.mk.injEq] at hc
        obtain ⟨rfl, rfl⟩ := hc
        refine ⟨hW, heapExtends_refl h, hclv, ?_, rfl, by simp [readVal]⟩
        intro a hr
        obtain ⟨b, hb⟩ := Reach_ref hr
        simp at hb
      | vundef =>
        simp only [safeDeepClone, Option.some.injEq, Prod.mk.injEq] at hc
        obtain ⟨rfl, rfl⟩ := hc
        refine ⟨hW, heapExtends_refl h, hclv, ?_, rfl, by simp [readVal]⟩
        intro a hr
        obtain ⟨b, hb⟩ := Reach_ref hr
        simp at hb
      | vbool b =>
        simp only [safeDeepClone, Option.some.injEq, Prod.mk.injEq] at hc
        obtain ⟨rfl, rfl⟩ := hc
        refine ⟨hW, heapExtends_refl h, hclv, ?_, rfl, by simp [readVal]⟩
        intro a hr
        obtain ⟨b', hb⟩ := Reach_ref hr
        simp at hb
      | vnum n =>
        simp only [safeDeepClone, Option.some.injEq, Prod.mk.injEq] at hc
        obtain ⟨rfl, rfl⟩ := hc
        refine ⟨hW, heapExtends_refl h, hclv, ?_, rfl, by simp [readVal]⟩
        intro a hr
        obtain ⟨b, hb⟩ := Reach_ref hr
        simp at hb
      | vstr s =>
        simp only [safeDeepClone, Option.some.injEq, Prod.mk.injEq] at hc
        obtain ⟨rfl, rfl⟩ := hc
        refine ⟨hW, heapExtends_refl h, hclv, ?_, rfl, by simp [readVal]⟩
        intro a hr
        obtain ⟨b, hb⟩ := Reach_ref hr
        simp at hb
      | vref a =>
        rw [safeDeepClone] at hc
        cases hga : alGet a h.objs with
        | none =>
          rw [hga] at hc
          simp at hc
        | some ob =>
          rw [hga] at hc
          cases ob with
          | jdate t =>
            simp only [allocObj, Option.some.injEq, Prod.mk.injEq] at hc
            obtain ⟨rfl, rfl⟩ := hc
            have hself : alGet h.next (alSet h.next (JObj.jdate t) h.objs)
                = some (JObj.jdate t) := alGet_alSet_self ..
            refine ⟨allocObj_WF hW _, allocObj_extends hW _, ?_, ?_, ?_, ?_⟩
            · intro c hr
              cases hr with
              | here b => exact ⟨Nat.lt_succ_self _, by simp [alGet_alSet_self]⟩
              | step b c o w hfind hm hrec =>
                have hfind2 : alGet h.next (alSet h.next (JObj.jdate t) h.objs)
                    = some o := hfind
                rw [hself] at hfind2
                have ho : o = JObj.jdate t := (Option.some_inj.mp hfind2).symm
                subst ho
                simp [objVals] at hm
            · intro c hr
              cases hr with
              | here b => exact Nat.le_refl _
              | step b c o w hfind hm hrec =>
                have hfind2 : alGet h.next (alSet h.next (JObj.jdate t) h.objs)
                    = some o := hfind
                rw [hself] at hfind2
                have ho : o = JObj.jdate t := (Option.some_inj.mp hfind2).symm
                subst ho
                simp [objVals] at hm
            · rw [readVal, readVal, hga]
              simp [alGet_alSet_self]
            · rw [readVal, hga]
              simp
          | jarr es =>
            simp only at hc
            cases hcl2 : cloneList fuel h es with
            | none =>
              rw [hcl2] at hc
              simp at hc
            | some q =>
              rw [hcl2] at hc
              obtain ⟨es₁, h₁⟩ := q
              simp only [allocObj, Option.some.injEq, Prod.mk.injEq] at hc
              obtain ⟨rfl, rfl⟩ := hc
              have hescl : ∀ w ∈ es, valClosed h w :=
                fun w hw => valClosed_member hclv hga (by simpa [objVals] using hw)
              obtain ⟨hW1, hx1, hclL, hfrL, hrdEqL, hsmL⟩ :=
                ih.2.1 h es es₁ h₁ hW hescl hcl2
              have hself : alGet h₁.next (alSet h₁.next (JObj.jarr es₁) h₁.objs)
                  = some (JObj.jarr es₁) := alGet_alSet_self ..
              have hx2 : heapExtends h₁
                  ({ objs := alSet h₁.next (JObj.jarr es₁) h₁.objs, next := h₁.next + 1 } : Heap) :=
                allocObj_extends hW1 (JObj.jarr es₁)
              refine ⟨allocObj_WF hW1 _, heapExtends_trans hx1 hx2, ?_, ?_, ?_, ?_⟩
              · intro c hr
                cases hr with
                | here b => exact ⟨Nat.lt_succ_self _, by simp [alGet_alSet_self]⟩
                | step b c o w hfind hm hrec =>
                  have hfind2 : alGet h₁.next (alSet h₁.next (JObj.jarr es₁) h₁.objs)
                      = some o := hfind
                  rw [hself] at hfind2
                  have ho : o = JObj.jarr es₁ := (Option.some_inj.mp hfind2).symm
                  subst ho
                  simp only [objVals] at hm
                  exact valClosed_mono hx2 (hclL w hm) c hrec
              · intro c hr
                cases hr with
                | here b => exact hx1.1
                | step b c o w hfind hm hrec =>
                  have hfind2 : alGet h₁.next (alSet h₁.next (JObj.jarr es₁) h₁.objs)
                      = some o := hfind
                  rw [hself] at hfind2
                  have ho : o = JObj.jarr es₁ := (Option.some_inj.mp hfind2).symm
                  subst ho
                  simp only [objVals] at hm
                  exact hfrL w hm c (Reach_back hx2 hrec (hclL w hm))
              · rw [readVal, readVal, hga]
                simp only [alGet_alSet_self]
                rw [(readVal_ext_closed fuel h₁ _ hx2).2.1 es₁ hclL, hrdEqL]
              · rw [readVal, hga]
                simp only
                obtain ⟨ts, hts⟩ := Option.isSome_iff_exists.mp hsmL
                rw [hts]
                rfl
          | jplain fs =>
            simp only at hc
            cases hcl2 : cloneFields fuel h fs with
            | none =>
              rw [hcl2] at hc
              simp at hc
            | some q =>
              rw [hcl2] at hc
              obtain ⟨fs₁, h₁⟩ := q
              simp only [allocObj, Option.some.injEq, Prod.mk.injEq] at hc
              obtain ⟨rfl, rfl⟩ := hc
              have hfscl : ∀ p ∈ fs, valClosed h p.2 :=
                fun p hp => valClosed_member hclv hga
                  (by simpa [objVals] using List.mem_map_of_mem Prod.snd hp)
              obtain ⟨hW1, hx1, hclL, hfrL, hrdEqL, hsmL⟩ :=
                ih.2.2 h fs fs₁ h₁ hW hfscl hcl2
              have hself : alGet h₁.next (alSet h₁.next (JObj.jplain fs₁) h₁.objs)
                  = some (JObj.jplain fs₁) := alGet_alSet_self ..
              have hx2 : heapExtends h₁
                  ({ objs := alSet h₁.next (JObj.jplain fs₁) h₁.objs, next := h₁.next + 1 } : Heap) :=
                allocObj_extends hW1 (JObj.jplain fs₁)
              refine ⟨allocObj_WF hW1 _, heapExtends_trans hx1 hx2, ?_, ?_, ?_, ?_⟩
              · intro c hr
                cases hr with
                | here b => exact ⟨Nat.lt_succ_self _, by simp [alGet_alSet_self]⟩
                | step b c o w hfind hm hrec =>
                  have hfind2 : alGet h₁.next (alSet h₁.next (JObj.jplain fs₁) h₁.objs)
                      = some o := hfind
                  rw [hself] at hfind2
                  have ho : o = JObj.jplain fs₁ := (Option.some_inj.mp hfind2).symm
                  subst ho
                  simp only [objVals] at hm
                  obtain ⟨p, hp, hpw⟩ := List.mem_map.mp hm
                  rw [← hpw] at hrec
                  exact valClosed_mono hx2 (hclL p hp) c hrec
              · intro c hr
                cases hr with
                | here b => exact hx1.1
                | step b c o w hfind hm hrec =>
                  have hfind2 : alGet h₁.next (alSet h₁.next (JObj.jplain fs₁) h₁.objs)
                      = some o := hfind
                  rw [hself] at hfind2
                  have ho : o = JObj.jplain fs₁ := (Option.some_inj.mp hfind2).symm
                  subst ho
                  simp only [objVals] at hm
                  obtain ⟨p, hp, hpw⟩ := List.mem_map.mp hm
                  rw [← hpw] at hrec
                  exact hfrL p hp c (Reach_back hx2 hrec (hclL p hp))
              · rw [readVal, readVal, hga]
                simp only [alGet_alSet_self]
                rw [(readVal_ext_closed fuel h₁ _ hx2).2.2 fs₁ hclL, hrdEqL]
              · rw [readVal, hga]
                simp only
                obtain ⟨ts, hts⟩ := Option.isSome_iff_exists.mp hsmL
                rw [hts]
                rfl
    exact ⟨hCV, step_CL _ hCV, step_CF _ hCV⟩

/-- C6: with no transformer configured, `create(name)` on a (non-constructor)
plain-data template returns a value that deep-equals the stored template — it
reads back as the same structure tree — but is not reference-equal to it, and
the values returned by successive `create(name)` calls are pairwise
reference-disjoint from each other, from the template, and from the value the
factory cached, so mutating a returned value can never change the cached
value or the value returned by any other `create(name)` call. -/
theorem factory_create_clone_independence (f : Nat) (st : FState) (name : String)
    (tmpl r1 r2 : JVal) (st1 st2 : FState)
    (hW : heapWF st.heap)
    (hmiss : alGet name st.cache = none)
    (hreg : BaseRegistry.get st.reg (.strName name) = some tmpl)
    (htr : jvalTruthy tmpl = true)
    (hcl : valClosed st.heap tmpl)
    (h1 : factoryCreate f none st name = .ok (r1, st1))
    (h2 : factoryCreate f none st1 name = .ok (r2, st2)) :
    (readVal f st2.heap r1 = readVal f st2.heap tmpl ∧
      (readVal f st2.heap tmpl).isSome) ∧
    readVal f st2.heap r2 = readVal f st2.heap tmpl ∧
    (∀ a, tmpl = .vref a → r1 ≠ .vref a) ∧
    (∀ a, tmpl = .vref a → r2 ≠ .vref a) ∧
    (∀ c, alGet name st1.cache = some c →
      (∀ a, Reach st2.heap r1 a → ¬ Reach st2.heap c a) ∧
      (∀ a, Reach st2.heap r2 a → ¬ Reach st2.heap c a)) ∧
    (∀ a, Reach st2.heap r1 a → ¬ Reach st2.heap r2 a) ∧
    (∀ a, Reach st2.heap r1 a → ¬ Reach st2.heap tmpl a) := by
  simp only [factoryCreate, hmiss] at h1
  simp only [factoryCreateMiss, hreg, htr, Bool.not_true, Bool.false_eq_true, if_false] at h1
  cases hc1 : safeDeepClone f st.heap tmpl with
  | none =>
    rw [hc1] at h1
    simp at h1
  | some p =>
    rw [hc1] at h1
    obtain ⟨result, hh1⟩ := p
    simp only at h1
    cases hc2 : safeDeepClone f hh1 result with
    | none =>
      rw [hc2] at h1
      simp at h1
    | some q =>
      rw [hc2] at h1
      obtain ⟨r1v, hh2⟩ := q
      simp only [Except.ok.injEq, Prod.mk.injEq] at h1
      obtain ⟨rfl, rfl⟩ := h1
      obtain ⟨hW1, hx1, hcl1, hfr1, hrd1, hsm1⟩ := (cloneSound f).1 st.heap tmpl result hh1 hW hcl hc1
      obtain ⟨hW2, hx2, hcl2, hfr2, hrd2, _⟩ := (cloneSound f).1 hh1 result r1v hh2 hW1 hcl1 hc2
      have htr2 : jvalTruthy result = true := by
        rw [clone_truthy hc1]
        exact htr
      rw [factoryCreate] at h2
      simp only [alGet_alSet_self, htr2, if_true] at h2
      cases hc3 : safeDeepClone f hh2 result with
      | none =>
        rw [hc3] at h2
        simp at h2
      | some q3 =>
        rw [hc3] at h2
        obtain ⟨r2v, hh3⟩ := q3
        simp only [Except.ok.injEq, Prod.mk.injEq] at h2
        obtain ⟨rfl, rfl⟩ := h2
        have hclr : valClosed hh2 result := valClosed_mono hx2 hcl1
        obtain ⟨hW3, hx3, hcl3, hfr3, hrd3, _⟩ := (cloneSound f).1 hh2 result r2v hh3 hW2 hclr hc3
        have hx13 : heapExtends hh1 hh3 := heapExtends_trans hx2 hx3
        have hx03 : heapExtends st.heap hh3 := heapExtends_trans hx1 hx13
        have hE1 : readVal f hh3 tmpl = readVal f st.heap tmpl :=
          (readVal_ext_closed f st.heap hh3 hx03).1 tmpl hcl
        have hE2 : readVal f hh3 r1v = readVal f hh2 r1v :=
          (readVal_ext_closed f hh2 hh3 hx3).1 r1v hcl2
        have hE3 : readVal f hh2 result = readVal f hh1 result :=
          (readVal_ext_closed f hh1 hh2 hx2).1 result hcl1
        have hr1mem : ∀ a, Reach hh3 r1v a → hh1.next ≤ a ∧ a < hh2.next := by
          intro a ha
          have hb := Reach_back hx3 ha hcl2
          exact ⟨hfr2 a hb, (hcl2 a hb).1⟩
        have hresmem : ∀ a, Reach hh3 result a → st.heap.next ≤ a ∧ a < hh1.next := by
          intro a ha
          have hb := Reach_back hx13 ha hcl1
          exact ⟨hfr1 a hb, (hcl1 a hb).1⟩
        have htm : ∀ a, Reach hh3 tmpl a → a < st.heap.next := by
          intro a ha
          exact (hcl a (Reach_back hx03 ha hcl)).1
        refine ⟨⟨hE2.trans (hrd2.trans (hrd1.trans hE1.symm)), ?_⟩,
          hrd3.trans (hE3.trans (hrd1.trans hE1.symm)), ?_, ?_, ?_, ?_, ?_⟩
        · rw [hE1]
          exact hsm1
        · intro a ht hr1a
          have ha1 : hh1.next ≤ a := (hr1mem a (hr1a ▸ Reach.here a)).1
          have ha2 : a < st.heap.next := by
            have := hcl a (ht ▸ Reach.here a)
            exact this.1
          have := hx1.1
          omega
        · intro a ht hr2a
          have ha1 : hh2.next ≤ a := hfr3 a (hr2a ▸ Reach.here a)
          have ha2 : a < st.heap.next := by
            have := hcl a (ht ▸ Reach.here a)
            exact this.1
          have h01 := hx1.1
          have h12 := hx2.1
          omega
        · intro c hcache
          have hcres : c = result := by
            have hcache2 : alGet name (alSet name result st.cache) = some c := hcache
            rw [alGet_alSet_self] at hcache2
            exact (Option.some_inj.mp hcache2).symm
          subst hcres
          constructor
          · intro a ha hac
            have h1m := hr1mem a ha
            have h2m := hresmem a hac
            omega
          · intro a ha hac
            have h1m := hfr3 a ha
            have h2m := hresmem a hac
            have h12 := hx2.1
            omega
        · intro a ha hb
          have h1m := hr1mem a ha
          have h2m := hfr3 a hb
          omega
        · intro a ha hb
          have h1m := hr1mem a ha
          have h2m := htm a hb
          have h01 := hx1.1
          omega

/-- C6 witness: two creates over the std-dev template; the first returned
clone deep-equals the template and shares no heap address with the second
returned clone. -/
theorem factory_create_clone_independence_witness :
    (readVal 3 st2C6.heap (JVal.vref 2) = readVal 3 st2C6.heap (JVal.vref 0) ∧
      (readVal 3 st2C6.heap (JVal.vref 0)).isSome) ∧
    (∀ a, Reach st2C6.heap (JVal.vref 2) a → ¬ Reach st2C6.heap (JVal.vref 3) a) := by
  have hcl : valClosed fstC6.heap (.vref 0) := by
    intro a hr
    cases hr with
    | here b => exact ⟨by decide, by decide⟩
    | step b c o w hf hm hrec =>
      have hfe : alGet 0 fstC6.heap.objs = some pObjC6 := rfl
      rw [hfe] at hf
      have ho : o = pObjC6 := (Option.some_inj.mp hf).symm
      subst ho
      simp [pObjC6, objVals] at hm
      rcases hm with rfl | rfl
      · obtain ⟨b2, hb2⟩ := Reach_ref hrec
        simp at hb2
      · obtain ⟨b2, hb2⟩ := Reach_ref hrec
        simp at hb2
  have h1 : factoryCreate 3 none fstC6 "item1" = .ok (.vref 2, st1C6) := by
    simp [factoryCreate, factoryCreateMiss, fstC6, st1C6, pObjC6, BaseRegistry.get,
      RName.truthy, RName.str, safeDeepClone, cloneFields, allocObj, alGet, alSet,
      jvalTruthy]
  have h2 : factoryCreate 3 none st1C6 "item1" = .ok (.vref 3, st2C6) := by
    simp [factoryCreate, factoryCreateMiss, st1C6, st2C6, pObjC6, BaseRegistry.get,
      RName.truthy, RName.str, safeDeepClone, cloneFields, allocObj, alGet, alSet,
      jvalTruthy]
  have h := factory_create_clone_independence 3 fstC6 "item1" (.vref 0) (.vref 2)
    (.vref 3) st1C6 st2C6 (by unfold heapWF; decide) rfl rfl rfl hcl h1 h2
  exact ⟨h.1, h.2.2.2.2.2.1⟩

end ClaDI
